import Mathlib

/-!
Verification of claim_sui: retry policy, worker pool, address loading and outcome logs

A shallow embedding of `src/claim_sui.js` (and the address loading shared with
`src/check_balance.js`).  Asynchronous code is embedded by explicit state
passing: the remote endpoint and the file system are oracles that script the
result of each call, and the pool is a transition system whose events are the
points at which the JavaScript code can be resumed.
-/

namespace ClaimSui

/-! ## Retry policy: `claimSuiTestnet` (src/claim_sui.js, lines 104-177) -/

/-- The constant `MAX_RETRIES` of src/claim_sui.js, line 29. -/
def MAX_RETRIES : Nat := 20

/-- How one pass through the `try` block of `claimSuiTestnet` ends before the
branch on `response.status`: the request resolved with status 202, resolved with
another status, or something in lines 106-136 threw. -/
inductive AttemptResult where
  | accepted
  | rejected
  | thrown
  deriving DecidableEq, Repr

/-- The three outcome logs: `sui_claim_success.txt`, `sui_claim_warning.txt`,
`sui_claim_error.txt`. -/
inductive LogFile where
  | success
  | warning
  | error
  deriving DecidableEq, Repr

/-- A record that reached a log: which file, for which address, and the value of
`retryCount` in the invocation that wrote it. -/
structure LogEntry where
  file : LogFile
  address : List Char
  retryCount : Nat
  deriving DecidableEq, Repr

/-- The scripted environment of one task: `attempt k` is the result of the
`k`-th invocation of `claimSuiTestnet` made for the task (zero-based), and
`appendOk k` tells whether the task's `k`-th call of `fs.appendFile` resolves
(`true`) or rejects (`false`). -/
structure Env where
  attempt : Nat → AttemptResult
  appendOk : Nat → Bool

/-- The observable effects of one task so far: the `retryCount` argument of every
invocation (oldest first), the number of `fs.appendFile` calls, and the records
that were appended (oldest first). -/
structure World where
  attempts : List Nat
  appendCalls : Nat
  log : List LogEntry
  deriving DecidableEq, Repr

/-- The state before the first invocation. -/
def World.init : World := { attempts := [], appendCalls := 0, log := [] }

/-- How an `async` call settles: it returns a boolean or it throws. -/
inductive Completion where
  | returned (b : Bool)
  | threw
  deriving DecidableEq, Repr

/-- The call `await fs.appendFile(file, JSON.stringify(record, null, 2) + sep)`:
the record reaches the log when the call resolves; the flag tells whether it
did. -/
def appendFile (env : Env) (file : LogFile) (address : List Char) (retryCount : Nat)
    (w : World) : Bool × World :=
  if env.appendOk w.appendCalls then
    (true, { w with appendCalls := w.appendCalls + 1,
                    log := w.log ++ [{ file := file, address := address, retryCount := retryCount }] })
  else
    (false, { w with appendCalls := w.appendCalls + 1 })

/-- The function `claimSuiTestnet(address, proxyUrl, retryCount)`, with fuel for
the recursion.  Each invocation is one attempt.  An exception raised inside the
`try` block (a failed request, a rejected append of the success or warning
record, or an exception leaving the recursive call of line 152) enters the
`catch` block of the same invocation; an exception raised inside the `catch`
block leaves the invocation. -/
def claimSuiTestnetFuel (env : Env) (address : List Char) :
    Nat → Nat → World → Option (Completion × World)
  | 0, _, _ => none
  | fuel + 1, retryCount, w =>
    let result := env.attempt w.attempts.length
    let w1 : World := { w with attempts := w.attempts ++ [retryCount] }
    -- lines 160-176
    let catchBlock : World → Option (Completion × World) := fun wc =>
      if retryCount < MAX_RETRIES then
        claimSuiTestnetFuel env address fuel (retryCount + 1) wc
      else
        match appendFile env LogFile.error address retryCount wc with
        | (true, w3) => some (Completion.returned false, w3)
        | (false, w3) => some (Completion.threw, w3)
    match result with
    | AttemptResult.thrown => catchBlock w1
    | AttemptResult.accepted =>
      -- lines 145-148
      match appendFile env LogFile.success address retryCount w1 with
      | (true, w2) => some (Completion.returned true, w2)
      | (false, w2) => catchBlock w2
    | AttemptResult.rejected =>
      -- lines 149-157
      if retryCount < MAX_RETRIES then
        match claimSuiTestnetFuel env address fuel (retryCount + 1) w1 with
        | none => none
        | some (Completion.returned b, w2) => some (Completion.returned b, w2)
        | some (Completion.threw, w2) => catchBlock w2
      else
        match appendFile env LogFile.warning address retryCount w1 with
        | (true, w2) => some (Completion.returned false, w2)
        | (false, w2) => catchBlock w2

/-- The function `claimSuiTestnet` with enough fuel for every recursion depth the
guard `retryCount < MAX_RETRIES` allows. -/
def claimSuiTestnet (env : Env) (address : List Char) (retryCount : Nat) (w : World) :
    Option (Completion × World) :=
  claimSuiTestnetFuel env address (MAX_RETRIES - retryCount + 1) retryCount w

/-- Every append of the task resolves. -/
def AppendsSucceed (env : Env) : Prop := ∀ k, env.appendOk k = true

/-- The log a result is recorded in when it ends the task. -/
def classify : AttemptResult → LogFile
  | AttemptResult.accepted => LogFile.success
  | AttemptResult.rejected => LogFile.warning
  | AttemptResult.thrown => LogFile.error

/-- An environment whose appends all resolve and whose attempts follow a script,
repeating `AttemptResult.rejected` after the end of the script. -/
def scripted (script : List AttemptResult) : Env :=
  { attempt := fun k => script.getD k AttemptResult.rejected, appendOk := fun _ => true }

/-- The state after a run of `m + 1` invocations that starts with retry count `r`
and ends by appending one record to `file`. -/
def World.after (w : World) (address : List Char) (r m : Nat) (file : LogFile) : World :=
  { attempts := w.attempts ++ List.range' r (m + 1),
    appendCalls := w.appendCalls + 1,
    log := w.log ++ [{ file := file, address := address, retryCount := r + m }] }


/-! ## Worker pool: class `ThreadPool` (src/claim_sui.js, lines 34-64) -/

/-- The constant `MAX_CONCURRENT` of src/claim_sui.js, line 31. -/
def MAX_CONCURRENT : Int := 20

/-- The fields of a `ThreadPool`.  The array `queue` holds the `resolve`
callbacks of the suspended `add` calls, oldest first; a callback is identified by
the number of the submission it resumes. -/
structure ThreadPool where
  maxThreads : Int
  queue : List Nat
  activeThreads : Int
  deriving DecidableEq, Repr

/-- The constructor, lines 35-39. -/
def ThreadPool.new (maxThreads : Int) : ThreadPool :=
  { maxThreads := maxThreads, queue := [], activeThreads := 0 }

/-- The method `add` up to its first suspension, lines 42-47, for submission
`id`: when `activeThreads >= maxThreads` the resolve callback is pushed and the
call suspends (second component `true`); otherwise `activeThreads++` runs at
once and the task starts. -/
def ThreadPool.add (p : ThreadPool) (id : Nat) : ThreadPool × Bool :=
  if p.activeThreads ≥ p.maxThreads then
    ({ p with queue := p.queue ++ [id] }, true)
  else
    ({ p with activeThreads := p.activeThreads + 1 }, false)

/-- The method `add` when a released call continues after line 44: line 47,
`activeThreads++`, with no second look at the guard. -/
def ThreadPool.addResume (p : ThreadPool) : ThreadPool :=
  { p with activeThreads := p.activeThreads + 1 }

/-- The `finally` block of `add`, lines 50-56: `activeThreads--`, and when the
queue is not empty `queue.shift()` is called and the callback it returns is
invoked.  The second component is the released submission. -/
def ThreadPool.addFinally (p : ThreadPool) : ThreadPool × Option Nat :=
  let p1 : ThreadPool := { p with activeThreads := p.activeThreads - 1 }
  if p1.queue.length > 0 then
    ({ p1 with queue := p1.queue.tail }, p1.queue.head?)
  else
    (p1, none)

/-- One evaluation of the loop condition of `waitAll`, line 60: `true` when the
loop exits, so that `waitAll` returns. -/
def ThreadPool.waitAll (p : ThreadPool) : Bool :=
  !decide (p.activeThreads > 0)

/-- Where a submission stands: its `add` call is suspended in the queue, has
been released but has not continued yet, runs its task, or has finished. -/
inductive TaskPhase where
  | queued
  | released
  | running
  | done
  deriving DecidableEq, Repr

/-- A pool together with the phase of every submission made so far; submission
`i` is the `i`-th call of `add`. -/
structure PoolState where
  pool : ThreadPool
  tasks : List TaskPhase
  deriving DecidableEq, Repr

/-- A fresh pool with no submission. -/
def PoolState.init (maxThreads : Int) : PoolState :=
  { pool := ThreadPool.new maxThreads, tasks := [] }

/-- The points at which code of the pool runs: a call of `add`, the continuation
of a released `add` call, and the end of a running task (by return or by
throw), which runs the `finally` block. -/
inductive PoolEvent where
  | add
  | resume (id : Nat)
  | finish (id : Nat) (threw : Bool)
  deriving DecidableEq, Repr

/-- One event of the pool; `none` when the event cannot happen in the state. -/
def PoolState.step (s : PoolState) : PoolEvent → Option PoolState
  | PoolEvent.add =>
    match s.pool.add s.tasks.length with
    | (p, true) => some { pool := p, tasks := s.tasks ++ [TaskPhase.queued] }
    | (p, false) => some { pool := p, tasks := s.tasks ++ [TaskPhase.running] }
  | PoolEvent.resume id =>
    if s.tasks[id]? = some TaskPhase.released then
      some { pool := s.pool.addResume, tasks := s.tasks.set id TaskPhase.running }
    else none
  | PoolEvent.finish id _ =>
    if s.tasks[id]? = some TaskPhase.running then
      match s.pool.addFinally with
      | (p, some next) =>
        some { pool := p, tasks := (s.tasks.set id TaskPhase.done).set next TaskPhase.released }
      | (p, none) => some { pool := p, tasks := s.tasks.set id TaskPhase.done }
    else none

/-- A sequence of events, from left to right. -/
def PoolState.run (s : PoolState) : List PoolEvent → Option PoolState
  | [] => some s
  | e :: es => (s.step e).bind (fun s1 => s1.run es)

/-! ## Orchestrator: `processAddresses` (src/claim_sui.js, lines 179-220) -/

/-- Where the task of one address stands: suspended in the queue; released;
awaiting `claimSuiTestnet` (line 196); in the pacing sleep of line 203 after
`claimSuiTestnet` returned `b` and the matching counter was incremented; its
`add` promise fulfilled; its `add` promise rejected. -/
inductive ClaimPhase where
  | queued
  | released
  | claiming
  | pacing (b : Bool)
  | fulfilled (b : Bool)
  | rejected
  deriving DecidableEq, Repr

/-- Where `processAddresses` stands: awaiting `Promise.all` (line 207), polling
in `waitAll` (line 210), after the summary of lines 212-215 was printed with
the given total, success and failure numbers, or in the `catch` block of line
218. -/
inductive Stage where
  | awaitingAll
  | draining
  | summarised (total success fail : Nat)
  | aborted
  deriving DecidableEq, Repr

/-- The state of a run of `processAddresses` after the address list was read. -/
structure Run where
  pool : ThreadPool
  tasks : List ClaimPhase
  successCount : Nat
  failCount : Nat
  stage : Stage
  deriving DecidableEq, Repr

/-- The call `pool.add(task)` for the next address, inside the synchronous
`tasks.map` of line 207. -/
def Run.submit (r : Run) : Run :=
  match r.pool.add r.tasks.length with
  | (p, true) => { r with pool := p, tasks := r.tasks ++ [ClaimPhase.queued] }
  | (p, false) => { r with pool := p, tasks := r.tasks ++ [ClaimPhase.claiming] }

/-- The state at line 192: the counters are zero and the pool is new. -/
def Run.start : Run :=
  { pool := ThreadPool.new MAX_CONCURRENT, tasks := [], successCount := 0, failCount := 0,
    stage := Stage.awaitingAll }

/-- The state when `processAddresses` reaches the `await` of line 207: the
counters are zero, the pool is new, and `add` was called once per address, in
order. -/
def Run.init (addresses : List (List Char)) : Run :=
  addresses.foldl (fun r _ => r.submit) Run.start

/-- How the call `claimSuiTestnet(address, proxyUrl)` of task `i` settles, in the
environment of that task. -/
def taskResult (addresses : List (List Char)) (envs : Nat → Env) (i : Nat) : Option Completion :=
  (claimSuiTestnet (envs i) (addresses.getD i []) 0 World.init).map Prod.fst

/-- The points at which `processAddresses` and its tasks continue: a released
`add` call continues; the `claimSuiTestnet` call of a task settles; the pacing
sleep of a task ends; `Promise.all` fulfils; `waitAll` evaluates its loop
condition. -/
inductive RunEvent where
  | resume (i : Nat)
  | claimSettles (i : Nat)
  | paceDone (i : Nat)
  | allFulfilled
  | waitAllPoll
  deriving DecidableEq, Repr

/-- The phases after the `finally` block released `next`. -/
def releaseNext (tasks : List ClaimPhase) : Option Nat → List ClaimPhase
  | some next => tasks.set next ClaimPhase.released
  | none => tasks

/-- One event of a run; `none` when the event cannot happen in the state.

* `claimSettles i`: when the call returned `b`, lines 197-201 increment
  `successCount` or `failCount` and the task sleeps; when the call threw, the
  task function rejects, the `finally` block of `add` runs, the `add` promise
  rejects and with it `Promise.all`, so that `processAddresses` enters its
  `catch` block, if it was still at line 207.
* `paceDone i`: the task function returns and the `finally` block of `add` runs.
* `allFulfilled`: every `add` promise is fulfilled, line 207 completes.
* `waitAllPoll`: when the loop of `waitAll` exits, lines 212-215 print the
  summary. -/
def Run.step (addresses : List (List Char)) (envs : Nat → Env) (r : Run) : RunEvent → Option Run
  | RunEvent.resume i =>
    if r.tasks[i]? = some ClaimPhase.released then
      some { r with pool := r.pool.addResume, tasks := r.tasks.set i ClaimPhase.claiming }
    else none
  | RunEvent.claimSettles i =>
    if r.tasks[i]? = some ClaimPhase.claiming then
      match taskResult addresses envs i with
      | some (Completion.returned true) =>
        some { r with successCount := r.successCount + 1,
                      tasks := r.tasks.set i (ClaimPhase.pacing true) }
      | some (Completion.returned false) =>
        some { r with failCount := r.failCount + 1,
                      tasks := r.tasks.set i (ClaimPhase.pacing false) }
      | some Completion.threw =>
        some { r with pool := r.pool.addFinally.1,
                      tasks := releaseNext (r.tasks.set i ClaimPhase.rejected) r.pool.addFinally.2,
                      stage := if r.stage = Stage.awaitingAll then Stage.aborted else r.stage }
      | none => none
    else none
  | RunEvent.paceDone i =>
    match r.tasks[i]? with
    | some (ClaimPhase.pacing b) =>
      some { r with pool := r.pool.addFinally.1,
                    tasks := releaseNext (r.tasks.set i (ClaimPhase.fulfilled b)) r.pool.addFinally.2 }
    | _ => none
  | RunEvent.allFulfilled =>
    if r.stage = Stage.awaitingAll ∧
        r.tasks.all (fun t => t == ClaimPhase.fulfilled true || t == ClaimPhase.fulfilled false) then
      some { r with stage := Stage.draining }
    else none
  | RunEvent.waitAllPoll =>
    if r.stage = Stage.draining then
      if r.pool.waitAll then
        some { r with stage := Stage.summarised addresses.length r.successCount r.failCount }
      else some r
    else none

/-- A sequence of events of a run, from left to right. -/
def Run.run (addresses : List (List Char)) (envs : Nat → Env) (r : Run) : List RunEvent → Option Run
  | [] => some r
  | e :: es => (r.step addresses envs e).bind (fun r1 => r1.run addresses envs es)

/-- A task in phase `t` has incremented the counter of outcome `b`:
`successCount` for `true`, `failCount` for `false`. -/
def counted (b : Bool) : ClaimPhase → Bool
  | ClaimPhase.pacing c => c == b
  | ClaimPhase.fulfilled c => c == b
  | _ => false

/-- The `add` promise of the task is fulfilled. -/
def isFulfilled : ClaimPhase → Bool
  | ClaimPhase.fulfilled _ => true
  | _ => false

/-- The invariant of a run of `processAddresses`: the counters count the tasks
whose `claimSuiTestnet` call returned, each under the value it returned; the
queue lists queued tasks, once each; there is one task per address; once
`Promise.all` has fulfilled every task is fulfilled; and a printed summary
shows the number of addresses and the two counters. -/
structure Run.Inv (addresses : List (List Char)) (envs : Nat → Env) (r : Run) : Prop where
  success_eq : r.successCount = r.tasks.countP (counted true)
  fail_eq : r.failCount = r.tasks.countP (counted false)
  result_of : ∀ i b, r.tasks[i]? = some (ClaimPhase.pacing b) ∨
      r.tasks[i]? = some (ClaimPhase.fulfilled b) →
      taskResult addresses envs i = some (Completion.returned b)
  queue_nodup : r.pool.queue.Nodup
  queue_queued : ∀ j, j ∈ r.pool.queue → r.tasks[j]? = some ClaimPhase.queued
  length_eq : r.tasks.length = addresses.length
  drained : r.stage ≠ Stage.awaitingAll → r.stage ≠ Stage.aborted →
      ∀ t, t ∈ r.tasks → isFulfilled t = true
  summary : ∀ n sc fc, r.stage = Stage.summarised n sc fc →
      n = addresses.length ∧ sc = r.successCount ∧ fc = r.failCount

/-- The invariant of the submission loop of line 207: no task has settled, the
queue lists queued tasks, once each, and `processAddresses` has not moved on. -/
structure Run.PreInv (r : Run) : Prop where
  success_zero : r.successCount = 0
  fail_zero : r.failCount = 0
  fresh : ∀ t, t ∈ r.tasks → t = ClaimPhase.queued ∨ t = ClaimPhase.claiming
  queue_nodup : r.pool.queue.Nodup
  queue_queued : ∀ j, j ∈ r.pool.queue → r.tasks[j]? = some ClaimPhase.queued
  stage_eq : r.stage = Stage.awaitingAll

/-! ## Address loading (src/claim_sui.js, lines 181-184; src/check_balance.js, lines 49-52) -/

/-- The method `String.prototype.split` for a non-empty string separator, as a
left-to-right scan: `skip` counts the characters of a matched separator still to
be passed over, `acc` holds the current piece in reverse.  The separator is
looked for at every position that is not inside an earlier match, and the piece
after the last match ends the result. -/
def splitAux (sep : List Char) : Nat → List Char → List Char → List (List Char)
  | _, acc, [] => [acc.reverse]
  | skip + 1, acc, _ :: cs => splitAux sep skip acc cs
  | 0, acc, c :: cs =>
    if sep.isPrefixOf (c :: cs) then acc.reverse :: splitAux sep (sep.length - 1) [] cs
    else splitAux sep 0 (c :: acc) cs

/-- The call `s.split(sep)`. -/
def split (s sep : List Char) : List (List Char) :=
  splitAux sep 0 [] s

/-- The characters `String.prototype.trim` removes: the ECMAScript WhiteSpace
code points (tab, vertical tab, form feed, the space separators, U+FEFF) and the
LineTerminator code points (line feed, carriage return, U+2028, U+2029). -/
def isWhiteSpace (c : Char) : Bool :=
  c.toNat == 0x09 || c.toNat == 0x0A || c.toNat == 0x0B || c.toNat == 0x0C || c.toNat == 0x0D ||
  c.toNat == 0x20 || c.toNat == 0xA0 || c.toNat == 0x1680 ||
  (0x2000 ≤ c.toNat && c.toNat ≤ 0x200A) ||
  c.toNat == 0x2028 || c.toNat == 0x2029 || c.toNat == 0x202F || c.toNat == 0x205F ||
  c.toNat == 0x3000 || c.toNat == 0xFEFF

/-- The call `s.trim()`: the white space at the start and at the end is
removed. -/
def trim (s : List Char) : List Char :=
  (s.dropWhile isWhiteSpace).rdropWhile isWhiteSpace

/-- The address list of `processAddresses`, lines 181-184, from the text of
`address.txt`: `.split('\n').map(addr => addr.trim()).filter(addr => addr)`;
a string is truthy when it is not empty. -/
def processAddresses_addresses (content : List Char) : List (List Char) :=
  ((split content ['\n']).map (fun addr => trim addr)).filter (fun addr => !addr.isEmpty)

/-- The address list of `checkBalances`, src/check_balance.js, lines 49-52. -/
def checkBalances_addresses (content : List Char) : List (List Char) :=
  ((split content ['\n']).map (fun addr => trim addr)).filter (fun addr => !addr.isEmpty)

/-! ## Outcome records and log text (src/claim_sui.js, lines 138-147, 155, 165-173) -/

/-- The characters of the text `Number::toString` gives for a finite number. -/
def isNumberChar (c : Char) : Bool :=
  c.isDigit || c == '-' || c == '+' || c == '.' || c == 'e'

/-- A finite number, by the text `JSON.stringify` writes for it (a number that
is not finite is written as `null`). -/
structure JNumber where
  text : List Char
  ok : text.all isNumberChar = true

mutual
/-- The values `JSON.stringify` is applied to: `undefined`, `null`, booleans,
finite numbers, strings, arrays and plain objects. -/
inductive JSValue where
  | undefined
  | null
  | bool (b : Bool)
  | num (n : JNumber)
  | str (s : List Char)
  | arr (items : JSItems)
  | obj (members : JSMembers)
/-- The elements of an array, in order. -/
inductive JSItems where
  | nil
  | cons (head : JSValue) (tail : JSItems)
/-- The properties of an object, in order. -/
inductive JSMembers where
  | nil
  | cons (key : List Char) (value : JSValue) (tail : JSMembers)
end

/-- A lowercase hexadecimal digit. -/
def hexDigit (n : Nat) : Char :=
  if n < 10 then Char.ofNat (48 + n) else Char.ofNat (87 + n)

/-- The escape `QuoteJSONString` writes for one character: the double quote and
the backslash are escaped, the control characters below U+0020 are written as
`\b`, `\t`, `\n`, `\f`, `\r` or `\u00xx`, every other character is kept. -/
def escapeChar (c : Char) : List Char :=
  if c = '"' then ['\\', '"']
  else if c = '\\' then ['\\', '\\']
  else if c.toNat = 8 then ['\\', 'b']
  else if c.toNat = 9 then ['\\', 't']
  else if c.toNat = 10 then ['\\', 'n']
  else if c.toNat = 12 then ['\\', 'f']
  else if c.toNat = 13 then ['\\', 'r']
  else if c.toNat < 32 then ['\\', 'u', '0', '0', hexDigit (c.toNat / 16), hexDigit (c.toNat % 16)]
  else [c]

/-- The operation `QuoteJSONString`. -/
def quote (s : List Char) : List Char :=
  '"' :: ((s.map escapeChar).flatten ++ ['"'])

/-- The indentation at a nesting level, for the gap of two spaces that the third
argument `2` of `JSON.stringify` selects. -/
def indentation (level : Nat) : List Char :=
  List.replicate (2 * level) ' '

/-- The text of an array or object from the texts of its parts
(`SerializeJSONArray`, `SerializeJSONObject` with a non-empty gap): without parts
the two brackets; otherwise every part on a line of its own, indented one level
deeper, and the closing bracket on a line of its own. -/
def bracketed (left right : Char) (level : Nat) (parts : List (List Char)) : List Char :=
  if parts.isEmpty then [left, right]
  else
    left :: '\n' :: (indentation (level + 1) ++
      (List.intercalate (',' :: '\n' :: indentation (level + 1)) parts ++
        '\n' :: (indentation level ++ [right])))

mutual
/-- The operation `SerializeJSONProperty` at a nesting level; `none` stands for
the result `undefined`. -/
def serialize (level : Nat) : JSValue → Option (List Char)
  | JSValue.undefined => none
  | JSValue.null => some ['n', 'u', 'l', 'l']
  | JSValue.bool true => some ['t', 'r', 'u', 'e']
  | JSValue.bool false => some ['f', 'a', 'l', 's', 'e']
  | JSValue.num n => some n.text
  | JSValue.str s => some (quote s)
  | JSValue.arr items => some (bracketed '[' ']' level (serializeItems (level + 1) items))
  | JSValue.obj members => some (bracketed '{' '}' level (serializeMembers (level + 1) members))
/-- The texts of the elements of an array; an element without text is written
`null`. -/
def serializeItems (level : Nat) : JSItems → List (List Char)
  | JSItems.nil => []
  | JSItems.cons v rest =>
    (match serialize level v with
      | some t => t
      | none => ['n', 'u', 'l', 'l']) :: serializeItems level rest
/-- The texts of the properties of an object; a property without text is left
out. -/
def serializeMembers (level : Nat) : JSMembers → List (List Char)
  | JSMembers.nil => []
  | JSMembers.cons key v rest =>
    match serialize level v with
    | some t => (quote key ++ ':' :: ' ' :: t) :: serializeMembers level rest
    | none => serializeMembers level rest
end

/-- The text `JSON.stringify(record, null, 2)` contributes to the string
concatenation of lines 147, 155 and 173; the value `undefined` concatenates as
the word `undefined`. -/
def recordText (v : JSValue) : List Char :=
  match serialize 0 v with
  | some t => t
  | none => ['u', 'n', 'd', 'e', 'f', 'i', 'n', 'e', 'd']

/-- The terminator written after every record. -/
def terminator : List Char := ['\n', '-', '-', '-', '\n']

/-- The text one call of `fs.appendFile` adds to a log. -/
def logBlock (v : JSValue) : List Char :=
  recordText v ++ terminator

/-- The text of a log after the records were appended in order. -/
def logText (vs : List JSValue) : List Char :=
  (vs.map logBlock).flatten

/-- The object `result` of lines 138-143. -/
def resultRecord (timestamp address : List Char) (status : JNumber) (data : JSValue) : JSValue :=
  JSValue.obj (JSMembers.cons "timestamp".toList (JSValue.str timestamp)
    (JSMembers.cons "address".toList (JSValue.str address)
      (JSMembers.cons "status".toList (JSValue.num status)
        (JSMembers.cons "response".toList data JSMembers.nil))))

/-- The object `errorInfo` of lines 165-171; `status` and `data` are `undefined`
when the error carries no response. -/
def errorInfo (timestamp address message : List Char) (status data : JSValue) : JSValue :=
  JSValue.obj (JSMembers.cons "timestamp".toList (JSValue.str timestamp)
    (JSMembers.cons "address".toList (JSValue.str address)
      (JSMembers.cons "error".toList (JSValue.str message)
        (JSMembers.cons "status".toList status
          (JSMembers.cons "response".toList data JSMembers.nil)))))

/-- Reading a log back: the text is split on a separator, every block is trimmed
and the empty blocks are dropped. -/
def blocks (text sep : List Char) : List (List Char) :=
  ((split text sep).map trim).filter (fun b => !b.isEmpty)

/-- A character that follows every line feed of a record text: a space of the
indentation or a closing bracket. -/
def followsLineFeed (c : Char) : Bool :=
  c == ' ' || c == ']' || c == '}'

/-- The text starts with a character that may follow a line feed. -/
def startsSafe : List Char → Bool
  | d :: _ => followsLineFeed d
  | [] => false

/-- Every line feed of the text is followed by a space or a closing bracket. -/
def lineSafe : List Char → Bool
  | [] => true
  | c :: cs => (c != '\n' || startsSafe cs) && lineSafe cs

/-- The task holds a slot of the pool: it was started and its `finally` block has
not run. -/
def isActive : ClaimPhase → Bool
  | ClaimPhase.claiming => true
  | ClaimPhase.pacing _ => true
  | _ => false

/-- The `add` call of the task was released and has not continued. -/
def isReleased : ClaimPhase → Bool
  | ClaimPhase.released => true
  | _ => false

/-- The invariant of the pool inside a run of `processAddresses`, where every
`add` call is made before any task finishes: `activeThreads` is the number of
tasks that hold a slot; together with the released tasks they are at most
`MAX_CONCURRENT`, and exactly that many while a task is queued; every queued
task is in the queue. -/
structure Run.PoolInv (r : Run) : Prop where
  max_eq : r.pool.maxThreads = MAX_CONCURRENT
  active_eq : r.pool.activeThreads = ((r.tasks.countP isActive : Nat) : Int)
  cap : ((r.tasks.countP isActive + r.tasks.countP isReleased : Nat) : Int) ≤ MAX_CONCURRENT
  queued_mem : ∀ i, r.tasks[i]? = some ClaimPhase.queued → i ∈ r.pool.queue
  full : r.pool.queue ≠ [] →
    ((r.tasks.countP isActive + r.tasks.countP isReleased : Nat) : Int) = MAX_CONCURRENT

/-- The number of events a task in a phase still needs before its `add` promise
settles. -/
def phaseRank : ClaimPhase → Nat
  | ClaimPhase.queued => 4
  | ClaimPhase.released => 3
  | ClaimPhase.claiming => 2
  | ClaimPhase.pacing _ => 1
  | _ => 0

/-- The number of events `processAddresses` itself still needs before the
summary is printed. -/
def stageRank : Stage → Nat
  | Stage.awaitingAll => 2
  | Stage.draining => 1
  | _ => 0

/-- A bound on the number of events before a run prints its summary. -/
def Run.measure (r : Run) : Nat :=
  (r.tasks.map phaseRank).sum + stageRank r.stage
/-! ## Theorems: retry policy -/

theorem appendFile_of_succeed (env : Env) (h : AppendsSucceed env) (file : LogFile)
    (address : List Char) (r : Nat) (w : World) :
    appendFile env file address r w =
      (true, { w with appendCalls := w.appendCalls + 1,
                      log := w.log ++ [{ file := file, address := address, retryCount := r }] }) := by
  simp [appendFile, h w.appendCalls]

theorem claimSuiTestnetFuel_run (env : Env) (address : List Char) (h : AppendsSucceed env) :
    ∀ (fuel r : Nat) (w : World), r ≤ MAX_RETRIES → MAX_RETRIES - r < fuel →
      ∃ m, r + m ≤ MAX_RETRIES ∧
        (∀ j, j < m → env.attempt (w.attempts.length + j) ≠ AttemptResult.accepted) ∧
        (env.attempt (w.attempts.length + m) = AttemptResult.accepted ∨ r + m = MAX_RETRIES) ∧
        claimSuiTestnetFuel env address fuel r w =
          some (Completion.returned (decide (env.attempt (w.attempts.length + m) = AttemptResult.accepted)),
                w.after address r m (classify (env.attempt (w.attempts.length + m)))) := by
  intro fuel
  induction fuel with
  | zero => intro r w _ hf; omega
  | succ fuel ih =>
    intro r w hr hf
    by_cases hlt : r < MAX_RETRIES
    · -- a further invocation is allowed
      have hrec := ih (r + 1) { w with attempts := w.attempts ++ [r] } (by omega) (by omega)
      obtain ⟨m, hm1, hm2, hm3, hm4⟩ := hrec
      simp only [List.length_append, List.length_singleton] at hm2 hm3 hm4
      cases hres : env.attempt w.attempts.length with
      | accepted =>
        refine ⟨0, by omega, by intro j hj; omega, Or.inl (by simpa using hres), ?_⟩
        simp [claimSuiTestnetFuel, hres, appendFile_of_succeed env h, World.after, classify]
      | rejected =>
        refine ⟨m + 1, by omega, ?_, ?_, ?_⟩
        · intro j hj
          cases j with
          | zero => simp [hres]
          | succ j =>
            have := hm2 j (by omega)
            rwa [show w.attempts.length + (j + 1) = w.attempts.length + 1 + j by omega]
        · rw [show w.attempts.length + (m + 1) = w.attempts.length + 1 + m by omega]
          rcases hm3 with h3 | h3
          · exact Or.inl h3
          · exact Or.inr (by omega)
        · rw [show w.attempts.length + (m + 1) = w.attempts.length + 1 + m by omega]
          simp [claimSuiTestnetFuel, hres, hlt, hm4, World.after, List.range'_succ]
          omega
      | thrown =>
        refine ⟨m + 1, by omega, ?_, ?_, ?_⟩
        · intro j hj
          cases j with
          | zero => simp [hres]
          | succ j =>
            have := hm2 j (by omega)
            rwa [show w.attempts.length + (j + 1) = w.attempts.length + 1 + j by omega]
        · rw [show w.attempts.length + (m + 1) = w.attempts.length + 1 + m by omega]
          rcases hm3 with h3 | h3
          · exact Or.inl h3
          · exact Or.inr (by omega)
        · rw [show w.attempts.length + (m + 1) = w.attempts.length + 1 + m by omega]
          simp [claimSuiTestnetFuel, hres, hlt, hm4, World.after, List.range'_succ]
          omega
    · -- the budget is used up: this invocation is the last one
      have hreq : r = MAX_RETRIES := by omega
      refine ⟨0, by omega, by intro j hj; omega, Or.inr (by omega), ?_⟩
      cases hres : env.attempt w.attempts.length <;>
        simp [claimSuiTestnetFuel, hres, hlt, appendFile_of_succeed env h, World.after, classify]


/-- The fuel of `claimSuiTestnet` is enough in every environment, also when
appends reject: the embedding always yields a completion. -/
theorem claimSuiTestnetFuel_total (env : Env) (address : List Char) :
    ∀ (fuel r : Nat) (w : World), MAX_RETRIES - r < fuel →
      ∃ res, claimSuiTestnetFuel env address fuel r w = some res := by
  intro fuel
  induction fuel with
  | zero => intro r w hf; omega
  | succ fuel ih =>
    intro r w hf
    have hcatch : ∀ wc : World, ∃ res,
        (if r < MAX_RETRIES then claimSuiTestnetFuel env address fuel (r + 1) wc
         else
          match appendFile env LogFile.error address r wc with
          | (true, w3) => some (Completion.returned false, w3)
          | (false, w3) => some (Completion.threw, w3)) = some res := by
      intro wc
      by_cases hlt : r < MAX_RETRIES
      · rw [if_pos hlt]
        exact ih (r + 1) wc (by omega)
      · rw [if_neg hlt]
        split <;> exact ⟨_, rfl⟩
    unfold claimSuiTestnetFuel
    simp only
    split
    · exact hcatch _
    · split
      · exact ⟨_, rfl⟩
      · exact hcatch _
    · by_cases hlt : r < MAX_RETRIES
      · rw [if_pos hlt]
        obtain ⟨res, hres⟩ := ih (r + 1) { w with attempts := w.attempts ++ [r] } (by omega)
        rw [hres]
        obtain ⟨c, w2⟩ := res
        cases c with
        | returned b => exact ⟨_, rfl⟩
        | threw => exact hcatch _
      · rw [if_neg hlt]
        split
        · exact ⟨_, rfl⟩
        · exact hcatch _

/-- The call `claimSuiTestnet(address, proxyUrl, retryCount)` always settles, in
every environment. -/
theorem claimSuiTestnet_total (env : Env) (address : List Char) (retryCount : Nat) (w : World) :
    ∃ res, claimSuiTestnet env address retryCount w = some res :=
  claimSuiTestnetFuel_total env address _ retryCount w (by omega)

/-- With resolving appends, a task whose first `m` results are not accepted and
whose result number `m` is accepted or is the last one the budget allows, makes
exactly `m + 1` attempts and ends with one record, classified by result `m`. -/
theorem claimSuiTestnet_eq (env : Env) (address : List Char) (h : AppendsSucceed env) (m : Nat)
    (hm : m ≤ MAX_RETRIES) (hbefore : ∀ j, j < m → env.attempt j ≠ AttemptResult.accepted)
    (hlast : env.attempt m = AttemptResult.accepted ∨ m = MAX_RETRIES) :
    claimSuiTestnet env address 0 World.init =
      some (Completion.returned (decide (env.attempt m = AttemptResult.accepted)),
            { attempts := List.range (m + 1), appendCalls := 1,
              log := [{ file := classify (env.attempt m), address := address, retryCount := m }] }) := by
  obtain ⟨n, hn1, hn2, hn3, hn4⟩ :=
    claimSuiTestnetFuel_run env address h (MAX_RETRIES - 0 + 1) 0 World.init (by omega) (by omega)
  simp only [World.init, List.length_nil, Nat.zero_add] at hn1 hn2 hn3 hn4
  have hnm : n = m := by
    rcases Nat.lt_trichotomy n m with hlt | heq | hgt
    · rcases hn3 with h3 | h3
      · exact absurd h3 (hbefore n hlt)
      · omega
    · exact heq
    · rcases hlast with h3 | h3
      · exact absurd h3 (hn2 m hgt)
      · omega
  subst hnm
  rw [claimSuiTestnet]
  simp only [World.init]
  rw [hn4]
  simp [World.after, List.range_eq_range']

/-- What the retry bound gives when every append resolves: for every address and
every script of attempt results (accepted, rejected, thrown, in any mix),
`claimSuiTestnet` started with `retryCount = 0` returns after at most
`MAX_RETRIES + 1 = 21` attempts; the retry counter of attempt number `k` is `k`
(it grows by one per attempt) and never exceeds `MAX_RETRIES`; and exactly one
record is appended, to one of the three logs, the success log exactly when the
result is `true`. -/
theorem claimSuiTestnet_bounded_one_record (env : Env) (address : List Char)
    (h : AppendsSucceed env) :
    ∃ (b : Bool) (w : World) (e : LogEntry),
      claimSuiTestnet env address 0 World.init = some (Completion.returned b, w) ∧
      w.attempts.length ≤ MAX_RETRIES + 1 ∧ MAX_RETRIES + 1 = 21 ∧
      w.attempts = List.range w.attempts.length ∧
      (∀ c, c ∈ w.attempts → c ≤ MAX_RETRIES) ∧
      w.appendCalls = 1 ∧ w.log = [e] ∧ e.address = address ∧
      (e.file = LogFile.success ∨ e.file = LogFile.warning ∨ e.file = LogFile.error) ∧
      (b = true ↔ e.file = LogFile.success) := by
  obtain ⟨n, hn1, hn2, hn3, -⟩ :=
    claimSuiTestnetFuel_run env address h (MAX_RETRIES - 0 + 1) 0 World.init (by omega) (by omega)
  simp only [World.init, List.length_nil, Nat.zero_add] at hn1 hn2 hn3
  refine ⟨_, _, _, claimSuiTestnet_eq env address h n hn1 hn2 hn3, ?_, rfl, ?_, ?_, rfl, rfl, rfl, ?_, ?_⟩
  · simp; omega
  · simp
  · intro c hc
    simp at hc
    omega
  · cases env.attempt n <;> simp [classify]
  · cases env.attempt n <;> simp [classify]

/-- The bound with resolving appends, on the script rejected, thrown, accepted. -/
theorem claimSuiTestnet_bounded_one_record_witness :
    AppendsSucceed (scripted [AttemptResult.rejected, AttemptResult.thrown, AttemptResult.accepted]) ∧
    ∃ (b : Bool) (w : World) (e : LogEntry),
      claimSuiTestnet (scripted [AttemptResult.rejected, AttemptResult.thrown, AttemptResult.accepted])
        ['0', 'x', 'a'] 0 World.init = some (Completion.returned b, w) ∧
      w.attempts.length ≤ MAX_RETRIES + 1 ∧ MAX_RETRIES + 1 = 21 ∧
      w.attempts = List.range w.attempts.length ∧
      (∀ c, c ∈ w.attempts → c ≤ MAX_RETRIES) ∧
      w.appendCalls = 1 ∧ w.log = [e] ∧ e.address = ['0', 'x', 'a'] ∧
      (e.file = LogFile.success ∨ e.file = LogFile.warning ∨ e.file = LogFile.error) ∧
      (b = true ↔ e.file = LogFile.success) :=
  ⟨fun _ => rfl, claimSuiTestnet_bounded_one_record _ _ (fun _ => rfl)⟩

/-- C1, the failing run: every attempt completes with a status other than 202,
the append to the warning log rejects and the first append to the error log
rejects.  The rejected append of line 173 leaves the invocation with
`retryCount = 20`; the throw is caught by the `try` block of the invocation with
`retryCount = 19`, around the recursive call of line 152, whose `catch` block
retries once more: the task makes 22 attempts, more than `MAX_RETRIES + 1 = 21`,
and the retry counter 20 is used twice instead of growing by one per attempt.
So the bound does not hold for every environment. -/
theorem claimSuiTestnet_exceeds_retry_budget :
    claimSuiTestnet { attempt := fun _ => AttemptResult.rejected, appendOk := fun k => decide (2 ≤ k) }
        ['0', 'x', 'a'] 0 World.init =
      some (Completion.returned false,
            { attempts := List.range 21 ++ [20], appendCalls := 3,
              log := [{ file := LogFile.warning, address := ['0', 'x', 'a'], retryCount := 20 }] }) ∧
    MAX_RETRIES + 1 < (List.range 21 ++ [20]).length ∧
    List.range 21 ++ [20] ≠ List.range (List.range 21 ++ [20]).length ∧
    ¬ (∀ (env : Env) (address : List Char), ∃ (c : Completion) (w : World),
        claimSuiTestnet env address 0 World.init = some (c, w) ∧
        w.attempts.length ≤ MAX_RETRIES + 1) := by
  have hval : claimSuiTestnet
      { attempt := fun _ => AttemptResult.rejected, appendOk := fun k => decide (2 ≤ k) }
      ['0', 'x', 'a'] 0 World.init =
      some (Completion.returned false,
            { attempts := List.range 21 ++ [20], appendCalls := 3,
              log := [{ file := LogFile.warning, address := ['0', 'x', 'a'], retryCount := 20 }] }) := by
    decide
  refine ⟨hval, by decide, by decide, fun hall => ?_⟩
  obtain ⟨c, w, hrun, hlen⟩ :=
    hall { attempt := fun _ => AttemptResult.rejected, appendOk := fun k => decide (2 ≤ k) }
      ['0', 'x', 'a']
  rw [hval] at hrun
  cases hrun
  exact absurd hlen (by decide)

/-- C2, amended: when the appends resolve, a script whose first accepted result is at
position `k ≤ MAX_RETRIES`, all earlier results being rejections, gives exactly
`k + 1` attempts, the result `true` and one record, in the success log; the
script that rejects at every position up to `MAX_RETRIES` gives exactly
`MAX_RETRIES + 1` attempts, the result `false` and one record, in the warning
log; and the result and the attempts are the same for any other address and any
other environment with the same results at the positions up to `MAX_RETRIES`. -/
theorem claimSuiTestnet_scripted (env : Env) (address : List Char) (h : AppendsSucceed env) :
    (∀ k, k ≤ MAX_RETRIES → (∀ j, j < k → env.attempt j = AttemptResult.rejected) →
      env.attempt k = AttemptResult.accepted →
      claimSuiTestnet env address 0 World.init =
        some (Completion.returned true,
              { attempts := List.range (k + 1), appendCalls := 1,
                log := [{ file := LogFile.success, address := address, retryCount := k }] })) ∧
    ((∀ j, j ≤ MAX_RETRIES → env.attempt j = AttemptResult.rejected) →
      claimSuiTestnet env address 0 World.init =
        some (Completion.returned false,
              { attempts := List.range (MAX_RETRIES + 1), appendCalls := 1,
                log := [{ file := LogFile.warning, address := address, retryCount := MAX_RETRIES }] })) ∧
    (∀ (env2 : Env) (address2 : List Char), AppendsSucceed env2 →
      (∀ j, j ≤ MAX_RETRIES → env2.attempt j = env.attempt j) →
      (claimSuiTestnet env2 address2 0 World.init).map
          (fun r => (r.1, r.2.attempts, r.2.log.map LogEntry.file)) =
        (claimSuiTestnet env address 0 World.init).map
          (fun r => (r.1, r.2.attempts, r.2.log.map LogEntry.file))) := by
  refine ⟨?_, ?_, ?_⟩
  · intro k hk hrej hacc
    have := claimSuiTestnet_eq env address h k hk
      (fun j hj => by rw [hrej j hj]; decide) (Or.inl hacc)
    simpa [hacc, classify] using this
  · intro hrej
    have := claimSuiTestnet_eq env address h MAX_RETRIES (Nat.le_refl _)
      (fun j hj => by rw [hrej j (Nat.le_of_lt hj)]; decide) (Or.inr rfl)
    simpa [hrej MAX_RETRIES (Nat.le_refl _), classify] using this
  · intro env2 address2 h2 hsame
    obtain ⟨n, hn1, hn2, hn3, -⟩ :=
      claimSuiTestnetFuel_run env address h (MAX_RETRIES - 0 + 1) 0 World.init (by omega) (by omega)
    simp only [World.init, List.length_nil, Nat.zero_add] at hn1 hn2 hn3
    rw [claimSuiTestnet_eq env address h n hn1 hn2 hn3,
      claimSuiTestnet_eq env2 address2 h2 n hn1
        (fun j hj => by rw [hsame j (by omega)]; exact hn2 j hj)
        (by rw [hsame n hn1]; exact hn3)]
    simp [hsame n hn1]

/-- C2 as stated fails: with the result accepted at position 0 and the first
append rejecting, the rejected append of line 147 is caught by the `try` block
and the request is made again: two attempts instead of `k + 1 = 1`; with the
same results and resolving appends there is one attempt, so the number of
attempts is not a function of the result sequence alone. -/
theorem attempts_depend_on_appends :
    ¬ (∀ (env : Env) (address : List Char) (k : Nat), k ≤ MAX_RETRIES →
        (∀ j, j < k → env.attempt j = AttemptResult.rejected) →
        env.attempt k = AttemptResult.accepted →
        ∃ w, claimSuiTestnet env address 0 World.init = some (Completion.returned true, w) ∧
          w.attempts.length = k + 1) ∧
    ¬ (∀ (env env2 : Env) (address : List Char), (∀ j, env2.attempt j = env.attempt j) →
        (claimSuiTestnet env2 address 0 World.init).map (fun r => (r.1, r.2.attempts)) =
          (claimSuiTestnet env address 0 World.init).map (fun r => (r.1, r.2.attempts))) := by
  have hval : claimSuiTestnet
      { attempt := fun _ => AttemptResult.accepted, appendOk := fun k => k != 0 }
      ['0', 'x', 'a'] 0 World.init =
      some (Completion.returned true,
            { attempts := [0, 1], appendCalls := 2,
              log := [{ file := LogFile.success, address := ['0', 'x', 'a'], retryCount := 1 }] }) := by
    decide
  have hval2 : claimSuiTestnet
      { attempt := fun _ => AttemptResult.accepted, appendOk := fun _ => true }
      ['0', 'x', 'a'] 0 World.init =
      some (Completion.returned true,
            { attempts := [0], appendCalls := 1,
              log := [{ file := LogFile.success, address := ['0', 'x', 'a'], retryCount := 0 }] }) := by
    decide
  constructor
  · intro hall
    obtain ⟨w, hrun, hlen⟩ :=
      hall { attempt := fun _ => AttemptResult.accepted, appendOk := fun k => k != 0 }
        ['0', 'x', 'a'] 0 (by decide) (fun j hj => absurd hj (Nat.not_lt_zero j)) rfl
    rw [hval] at hrun
    cases hrun
    exact absurd hlen (by decide)
  · intro hall
    have h := hall { attempt := fun _ => AttemptResult.accepted, appendOk := fun _ => true }
      { attempt := fun _ => AttemptResult.accepted, appendOk := fun k => k != 0 }
      ['0', 'x', 'a'] (fun _ => rfl)
    rw [hval, hval2] at h
    exact absurd h (by decide)

/-- Witness for C2, amended: the script rejected, rejected, accepted gives exactly
three attempts and success. -/
theorem claimSuiTestnet_scripted_witness :
    AppendsSucceed (scripted [AttemptResult.rejected, AttemptResult.rejected, AttemptResult.accepted]) ∧
    claimSuiTestnet (scripted [AttemptResult.rejected, AttemptResult.rejected, AttemptResult.accepted])
        ['0', 'x', 'a'] 0 World.init =
      some (Completion.returned true,
            { attempts := [0, 1, 2], appendCalls := 1,
              log := [{ file := LogFile.success, address := ['0', 'x', 'a'], retryCount := 2 }] }) :=
  ⟨fun _ => rfl,
   (claimSuiTestnet_scripted _ ['0', 'x', 'a'] (fun _ => rfl)).1 2 (by decide)
     (fun j hj => by
        have hj2 : j = 0 ∨ j = 1 := by omega
        rcases hj2 with rfl | rfl <;> rfl)
     rfl⟩

/-- C7 as stated fails: when every request throws (and every append resolves),
no attempt is accepted, yet the task's only record goes to the error log and
nothing is appended to the warning log; and when every attempt is a completed
rejection and the append to the warning log rejects, the rejection is caught by
the `try` block and the task's only record goes to the error log as well. -/
theorem exhausted_not_always_warning :
    ¬ (∀ (env : Env) (address : List Char), AppendsSucceed env →
        (∀ j, j ≤ MAX_RETRIES → env.attempt j ≠ AttemptResult.accepted) →
        ∃ (c : Completion) (w : World),
          claimSuiTestnet env address 0 World.init = some (c, w) ∧
          ∃ e, e ∈ w.log ∧ e.file = LogFile.warning) ∧
    claimSuiTestnet { attempt := fun _ => AttemptResult.rejected, appendOk := fun k => k != 0 }
        ['0', 'x', 'a'] 0 World.init =
      some (Completion.returned false,
            { attempts := List.range 21, appendCalls := 2,
              log := [{ file := LogFile.error, address := ['0', 'x', 'a'], retryCount := 20 }] }) := by
  refine ⟨?_, by decide⟩
  intro hall
  obtain ⟨c, w, hrun, e, he, hfile⟩ :=
    hall { attempt := fun _ => AttemptResult.thrown, appendOk := fun _ => true } ['0', 'x', 'a']
      (fun _ => rfl) (fun _ _ hacc => by cases hacc)
  have hval : claimSuiTestnet { attempt := fun _ => AttemptResult.thrown, appendOk := fun _ => true }
      ['0', 'x', 'a'] 0 World.init =
      some (Completion.returned false,
            { attempts := List.range 21, appendCalls := 1,
              log := [{ file := LogFile.error, address := ['0', 'x', 'a'], retryCount := 20 }] }) := by
    decide
  rw [hval] at hrun
  cases hrun
  simp at he
  subst he
  exact absurd hfile (by decide)

/-- C7, amended: when every append to the logs resolves and none of the
`MAX_RETRIES + 1` attempts is accepted, the task makes exactly `MAX_RETRIES + 1` attempts, returns
`false` and appends exactly one record: to the warning log when the last
attempt was a completed rejection, to the error log when the last attempt
threw. -/
theorem claimSuiTestnet_exhausted (env : Env) (address : List Char) (h : AppendsSucceed env)
    (hnever : ∀ j, j ≤ MAX_RETRIES → env.attempt j ≠ AttemptResult.accepted) :
    claimSuiTestnet env address 0 World.init =
      some (Completion.returned false,
            { attempts := List.range (MAX_RETRIES + 1), appendCalls := 1,
              log := [{ file := if env.attempt MAX_RETRIES = AttemptResult.rejected
                                then LogFile.warning else LogFile.error,
                        address := address, retryCount := MAX_RETRIES }] }) := by
  have := claimSuiTestnet_eq env address h MAX_RETRIES (Nat.le_refl _)
    (fun j hj => hnever j (Nat.le_of_lt hj)) (Or.inr rfl)
  rw [this]
  have hlast := hnever MAX_RETRIES (Nat.le_refl _)
  cases hres : env.attempt MAX_RETRIES <;> simp_all [classify]

/-- Witness for C7, amended: twenty rejections followed by a thrown error end in
the error log. -/
theorem claimSuiTestnet_exhausted_witness :
    AppendsSucceed { attempt := fun k => if k < 20 then AttemptResult.rejected else AttemptResult.thrown,
                     appendOk := fun _ => true } ∧
    claimSuiTestnet { attempt := fun k => if k < 20 then AttemptResult.rejected else AttemptResult.thrown,
                      appendOk := fun _ => true } ['0', 'x', 'a'] 0 World.init =
      some (Completion.returned false,
            { attempts := List.range (MAX_RETRIES + 1), appendCalls := 1,
              log := [{ file := LogFile.error, address := ['0', 'x', 'a'], retryCount := MAX_RETRIES }] }) :=
  ⟨fun _ => rfl,
   claimSuiTestnet_exhausted _ ['0', 'x', 'a'] (fun _ => rfl)
     (fun j _ => by
        show (if j < 20 then AttemptResult.rejected else AttemptResult.thrown) ≠ AttemptResult.accepted
        split <;> decide)⟩

/-! ## Theorems: worker pool -/

/-- C4, the failing interleaving: with `maxThreads = 1`, submission 0 runs and
submission 1 is queued; when 0 finishes, `activeThreads` drops to 0 and 1 is
released; a fresh `add` (submission 2) arrives before 1 continues, passes the
guard and starts; then 1 continues and increments without a second look at the
guard: two tasks run and `activeThreads = 2 > maxThreads`. -/
theorem threadPool_exceeds_maxThreads :
    (PoolState.init 1).run
        [PoolEvent.add, PoolEvent.add, PoolEvent.finish 0 false, PoolEvent.add, PoolEvent.resume 1] =
      some { pool := { maxThreads := 1, queue := [], activeThreads := 2 },
             tasks := [TaskPhase.done, TaskPhase.running, TaskPhase.running] } ∧
    ¬ (∀ (c : Int) (events : List PoolEvent) (s : PoolState),
        (PoolState.init c).run events = some s → s.pool.activeThreads ≤ c) := by
  refine ⟨by decide, fun hall => ?_⟩
  have := hall 1
    [PoolEvent.add, PoolEvent.add, PoolEvent.finish 0 false, PoolEvent.add, PoolEvent.resume 1]
    { pool := { maxThreads := 1, queue := [], activeThreads := 2 },
      tasks := [TaskPhase.done, TaskPhase.running, TaskPhase.running] } (by decide)
  exact absurd this (by decide)

/-- C5, the failing states: in a pool with `maxThreads = 0` a submitted task is
queued and never started, and in a pool with `maxThreads = 1` a released task
has not started yet, and in both states the loop condition of `waitAll` is
false, so `waitAll` returns although a submitted task has not completed. -/
theorem waitAll_returns_before_completion :
    (∃ s, (PoolState.init 0).run [PoolEvent.add] = some s ∧
      s.tasks = [TaskPhase.queued] ∧ s.pool.queue = [0] ∧ s.pool.waitAll = true) ∧
    (∃ s, (PoolState.init 1).run [PoolEvent.add, PoolEvent.add, PoolEvent.finish 0 false] = some s ∧
      s.tasks = [TaskPhase.done, TaskPhase.released] ∧ s.pool.waitAll = true) ∧
    ¬ (∀ (c : Int) (events : List PoolEvent) (s : PoolState),
        (PoolState.init c).run events = some s → s.pool.waitAll = true →
        ∀ t, t ∈ s.tasks → t = TaskPhase.done) := by
  refine ⟨⟨_, rfl, by decide, by decide, by decide⟩, ⟨_, rfl, by decide, by decide⟩, fun hall => ?_⟩
  have := hall 0 [PoolEvent.add]
    { pool := { maxThreads := 0, queue := [0], activeThreads := 0 }, tasks := [TaskPhase.queued] }
    (by decide) (by decide) TaskPhase.queued (by simp)
  exact absurd this (by decide)

/-- The part of C5 that holds: `waitAll` does not return while
`activeThreads > 0`. -/
theorem waitAll_waits_while_active (p : ThreadPool) :
    p.waitAll = true ↔ p.activeThreads ≤ 0 := by
  simp [ThreadPool.waitAll]

/-- C10: when a running task finishes, by return or by throw, the `finally`
block decrements `activeThreads` by exactly one and leaves `maxThreads` alone;
when the queue is not empty exactly its head, the waiter enqueued earliest, is
removed and released, the others keeping their order; when the queue is empty
nothing is released.  A suspended `add` enqueues at the end of the queue. -/
theorem finish_releases_earliest_waiter (s : PoolState) (id : Nat) (threw : Bool)
    (h : s.tasks[id]? = some TaskPhase.running) :
    ∃ s1, s.step (PoolEvent.finish id threw) = some s1 ∧
      s.step (PoolEvent.finish id (!threw)) = some s1 ∧
      s1.pool.activeThreads = s.pool.activeThreads - 1 ∧
      s1.pool.maxThreads = s.pool.maxThreads ∧
      s1.pool.queue = s.pool.queue.tail ∧
      (∀ w rest, s.pool.queue = w :: rest →
        s1.pool.queue = rest ∧
        s1.tasks = (s.tasks.set id TaskPhase.done).set w TaskPhase.released) ∧
      (s.pool.queue = [] → s1.pool.queue = [] ∧ s1.tasks = s.tasks.set id TaskPhase.done) ∧
      (∀ k, (s.pool.add k).1.queue =
        if s.pool.activeThreads ≥ s.pool.maxThreads then s.pool.queue ++ [k] else s.pool.queue) := by
  have hadd : ∀ k, (s.pool.add k).1.queue =
      if s.pool.activeThreads ≥ s.pool.maxThreads then s.pool.queue ++ [k] else s.pool.queue := by
    intro k
    unfold ThreadPool.add
    split <;> rfl
  cases hq : s.pool.queue with
  | nil =>
    refine ⟨{ pool := { s.pool with activeThreads := s.pool.activeThreads - 1 },
              tasks := s.tasks.set id TaskPhase.done }, ?_, ?_, rfl, rfl, ?_, ?_, ?_, ?_⟩
    · simp [PoolState.step, h, ThreadPool.addFinally, hq]
    · simp [PoolState.step, h, ThreadPool.addFinally, hq]
    · simp [hq]
    · intro w rest hw; cases hw
    · intro _; exact ⟨hq, rfl⟩
    · simpa [hq] using hadd
  | cons w rest =>
    refine ⟨{ pool := { s.pool with activeThreads := s.pool.activeThreads - 1, queue := rest },
              tasks := (s.tasks.set id TaskPhase.done).set w TaskPhase.released },
            ?_, ?_, rfl, rfl, rfl, ?_, ?_, ?_⟩
    · simp [PoolState.step, h, ThreadPool.addFinally, hq]
    · simp [PoolState.step, h, ThreadPool.addFinally, hq]
    · intro w2 rest2 hw
      cases hw
      exact ⟨rfl, rfl⟩
    · intro hnil; cases hnil
    · simpa [hq] using hadd

/-- Witness for C10: a pool of one slot with submission 0 running and
submissions 1 and 2 queued in that order; when 0 finishes, 1 is released and 2
stays queued. -/
theorem finish_releases_earliest_waiter_witness :
    ({ pool := { maxThreads := 1, queue := [1, 2], activeThreads := 1 },
       tasks := [TaskPhase.running, TaskPhase.queued, TaskPhase.queued] } : PoolState).tasks[0]?
      = some TaskPhase.running ∧
    ∃ s1, ({ pool := { maxThreads := 1, queue := [1, 2], activeThreads := 1 },
             tasks := [TaskPhase.running, TaskPhase.queued, TaskPhase.queued] } : PoolState).step
          (PoolEvent.finish 0 true) = some s1 ∧
      s1.pool.activeThreads = 0 ∧ s1.pool.queue = [2] ∧
      s1.tasks = [TaskPhase.done, TaskPhase.released, TaskPhase.queued] := by
  refine ⟨rfl, ?_⟩
  obtain ⟨s1, h1, -, h3, -, -, h6, -, -⟩ :=
    finish_releases_earliest_waiter
      { pool := { maxThreads := 1, queue := [1, 2], activeThreads := 1 },
        tasks := [TaskPhase.running, TaskPhase.queued, TaskPhase.queued] } 0 true rfl
  refine ⟨s1, h1, ?_, (h6 1 [2] rfl).1, ?_⟩
  · simpa using h3
  · simpa using (h6 1 [2] rfl).2

/-! ## Theorems: orchestrator -/

theorem countP_set_of_getElem? {α : Type} (p : α → Bool) (l : List α) (i : Nat) (t a : α)
    (h : l[i]? = some t) :
    (l.set i a).countP p + (if p t then 1 else 0) = l.countP p + (if p a then 1 else 0) := by
  obtain ⟨hi, hget⟩ := List.getElem?_eq_some.1 h
  have h1 := List.countP_set p l i a hi
  have h2 : (if p l[i] = true then 1 else 0) ≤ l.countP p := List.boole_getElem_le_countP p l i hi
  rw [hget] at h1 h2
  omega

theorem Run.submit_preInv (r : Run) (h : r.PreInv) : r.submit.PreInv ∧
    r.submit.tasks.length = r.tasks.length + 1 := by
  have hlt : ∀ j, j ∈ r.pool.queue → j < r.tasks.length := fun j hj =>
    (List.getElem?_eq_some.1 (h.queue_queued j hj)).1
  unfold Run.submit ThreadPool.add
  split_ifs with hc
  · refine ⟨⟨h.success_zero, h.fail_zero, ?_, ?_, ?_, h.stage_eq⟩, by simp⟩
    · intro t ht
      simp only [List.mem_append, List.mem_singleton] at ht
      rcases ht with ht | ht
      · exact h.fresh t ht
      · exact Or.inl ht
    · simp only
      rw [List.nodup_append]
      refine ⟨h.queue_nodup, List.nodup_singleton _, ?_⟩
      intro a ha hb
      simp only [List.mem_singleton] at hb
      have := hlt a ha
      omega
    · intro j hj
      simp only [List.mem_append, List.mem_singleton] at hj
      rcases hj with hj | hj
      · simp only
        rw [List.getElem?_append_left (hlt j hj)]
        exact h.queue_queued j hj
      · subst hj
        simp
  · refine ⟨⟨h.success_zero, h.fail_zero, ?_, h.queue_nodup, ?_, h.stage_eq⟩, by simp⟩
    · intro t ht
      simp only [List.mem_append, List.mem_singleton] at ht
      rcases ht with ht | ht
      · exact h.fresh t ht
      · exact Or.inr ht
    · intro j hj
      simp only
      rw [List.getElem?_append_left (hlt j hj)]
      exact h.queue_queued j hj

theorem Run.foldl_submit_preInv (l : List (List Char)) :
    ∀ r : Run, r.PreInv → (l.foldl (fun r _ => r.submit) r).PreInv ∧
      (l.foldl (fun r _ => r.submit) r).tasks.length = r.tasks.length + l.length := by
  induction l with
  | nil => intro r h; exact ⟨h, rfl⟩
  | cons a l ih =>
    intro r h
    obtain ⟨h1, h2⟩ := Run.submit_preInv r h
    obtain ⟨h3, h4⟩ := ih r.submit h1
    refine ⟨h3, ?_⟩
    simp only [List.foldl_cons, List.length_cons]
    rw [h4, h2]
    omega

theorem countP_counted_of_fresh (b : Bool) (l : List ClaimPhase)
    (h : ∀ t, t ∈ l → t = ClaimPhase.queued ∨ t = ClaimPhase.claiming) :
    l.countP (counted b) = 0 := by
  rw [List.countP_eq_zero]
  intro t ht
  rcases h t ht with rfl | rfl <;> simp [counted]

theorem Run.init_inv (addresses : List (List Char)) (envs : Nat → Env) :
    (Run.init addresses).Inv addresses envs := by
  have hpre : Run.start.PreInv :=
    ⟨rfl, rfl, by simp [Run.start], by simp [Run.start, ThreadPool.new],
      by simp [Run.start, ThreadPool.new], rfl⟩
  have hfold := Run.foldl_submit_preInv addresses _ hpre
  change (Run.init addresses).PreInv ∧ (Run.init addresses).tasks.length = 0 + addresses.length
    at hfold
  obtain ⟨h1, h2⟩ := hfold
  refine ⟨?_, ?_, ?_, h1.queue_nodup, h1.queue_queued, ?_, ?_, ?_⟩
  · rw [countP_counted_of_fresh true _ h1.fresh]; exact h1.success_zero
  · rw [countP_counted_of_fresh false _ h1.fresh]; exact h1.fail_zero
  · intro i b hib
    rcases hib with hib | hib
    · rcases h1.fresh _ (List.getElem?_mem hib) with hc | hc <;> cases hc
    · rcases h1.fresh _ (List.getElem?_mem hib) with hc | hc <;> cases hc
  · simpa using h2
  · intro hne _
    exact absurd h1.stage_eq hne
  · intro n sc fc hs
    have := h1.stage_eq
    rw [hs] at this
    cases this

theorem addFinally_nil (p : ThreadPool) (h : p.queue = []) :
    p.addFinally = ({ p with activeThreads := p.activeThreads - 1 }, none) := by
  simp [ThreadPool.addFinally, h]

theorem addFinally_cons (p : ThreadPool) (w : Nat) (rest : List Nat) (h : p.queue = w :: rest) :
    p.addFinally = ({ p with activeThreads := p.activeThreads - 1, queue := rest }, some w) := by
  simp [ThreadPool.addFinally, h]

/-- The effect of the `finally` block on the queue and the phases, when task `i`
leaves phase `t` for phase `a`. -/
theorem finally_facts (pool : ThreadPool) (tasks : List ClaimPhase) (i : Nat) (t a : ClaimPhase)
    (hnd : pool.queue.Nodup) (hq : ∀ j, j ∈ pool.queue → tasks[j]? = some ClaimPhase.queued)
    (hi : tasks[i]? = some t) (ht : t ≠ ClaimPhase.queued) :
    pool.addFinally.1.queue.Nodup ∧
    (∀ j, j ∈ pool.addFinally.1.queue →
      (releaseNext (tasks.set i a) pool.addFinally.2)[j]? = some ClaimPhase.queued) ∧
    (releaseNext (tasks.set i a) pool.addFinally.2).length = tasks.length ∧
    (∀ b, (releaseNext (tasks.set i a) pool.addFinally.2).countP (counted b) +
        (if counted b t then 1 else 0) =
      tasks.countP (counted b) + (if counted b a then 1 else 0)) ∧
    (releaseNext (tasks.set i a) pool.addFinally.2)[i]? = some a ∧
    (∀ j, j ≠ i → ∀ x, x ≠ ClaimPhase.released →
      (releaseNext (tasks.set i a) pool.addFinally.2)[j]? = some x → tasks[j]? = some x) := by
  have hilt : i < tasks.length := (List.getElem?_eq_some.1 hi).1
  have hne : ∀ j, j ∈ pool.queue → j ≠ i := by
    intro j hj hji
    subst hji
    rw [hq j hj] at hi
    exact ht (Option.some.inj hi).symm
  cases hqueue : pool.queue with
  | nil =>
    rw [addFinally_nil pool hqueue]
    simp only [releaseNext]
    refine ⟨by simp [hqueue], by simp [hqueue], by simp, ?_, by simp [hilt], ?_⟩
    · intro b
      exact countP_set_of_getElem? (counted b) tasks i t a hi
    · intro j hj x _ hx
      rwa [List.getElem?_set_ne (Ne.symm hj)] at hx
  | cons w rest =>
    rw [addFinally_cons pool w rest hqueue]
    simp only [releaseNext]
    have hw : w ∈ pool.queue := by simp [hqueue]
    have hwi : w ≠ i := hne w hw
    have hwq : (tasks.set i a)[w]? = some ClaimPhase.queued := by
      rw [List.getElem?_set_ne (Ne.symm hwi)]
      exact hq w hw
    have hwlt : w < (tasks.set i a).length := (List.getElem?_eq_some.1 hwq).1
    rw [hqueue] at hnd
    have hnd2 := List.nodup_cons.1 hnd
    refine ⟨hnd2.2, ?_, by simp, ?_, ?_, ?_⟩
    · intro j hj
      have hjq : j ∈ pool.queue := by simp [hqueue, hj]
      have hjw : w ≠ j := by
        intro hwj
        subst hwj
        exact hnd2.1 hj
      rw [List.getElem?_set_ne hjw, List.getElem?_set_ne (Ne.symm (hne j hjq))]
      exact hq j hjq
    · intro b
      have h1 := countP_set_of_getElem? (counted b) tasks i t a hi
      have h2 := countP_set_of_getElem? (counted b) (tasks.set i a) w ClaimPhase.queued
        ClaimPhase.released hwq
      simp only [counted] at h2
      simp only [Bool.false_eq_true, if_false, Nat.add_zero] at h2
      rw [h2]
      exact h1
    · rw [List.getElem?_set_ne hwi]
      simp [hilt]
    · intro j hj x hx hjx
      by_cases hjw : w = j
      · subst hjw
        rw [List.getElem?_set_self hwlt] at hjx
        exact absurd (Option.some.inj hjx).symm hx
      · rwa [List.getElem?_set_ne hjw, List.getElem?_set_ne (Ne.symm hj)] at hjx

/-- While a task is not fulfilled, `processAddresses` is at line 207 or in its
`catch` block. -/
theorem Run.Inv.stage_of_unfulfilled {addresses : List (List Char)} {envs : Nat → Env} {r : Run}
    (h : r.Inv addresses envs) (i : Nat) (t : ClaimPhase) (hi : r.tasks[i]? = some t)
    (ht : isFulfilled t = false) : r.stage = Stage.awaitingAll ∨ r.stage = Stage.aborted := by
  by_cases h1 : r.stage = Stage.awaitingAll
  · exact Or.inl h1
  · by_cases h2 : r.stage = Stage.aborted
    · exact Or.inr h2
    · have := h.drained h1 h2 t (List.getElem?_mem hi)
      rw [ht] at this
      cases this

/-- A task that leaves a phase other than `queued` by the `finally` block keeps
the invariant, when the counters agree with the phases before and after. -/
theorem Run.Inv.finally_step {addresses : List (List Char)} {envs : Nat → Env} {r : Run}
    (h : r.Inv addresses envs) (i : Nat) (t a : ClaimPhase) (stage : Stage)
    (hi : r.tasks[i]? = some t) (ht : t ≠ ClaimPhase.queued)
    (hc : ∀ b, counted b a = counted b t)
    (hres : ∀ b, a = ClaimPhase.pacing b ∨ a = ClaimPhase.fulfilled b →
      taskResult addresses envs i = some (Completion.returned b))
    (hstage : stage = Stage.awaitingAll ∨ stage = Stage.aborted) :
    Run.Inv addresses envs
      { r with pool := r.pool.addFinally.1,
               tasks := releaseNext (r.tasks.set i a) r.pool.addFinally.2,
               stage := stage } := by
  obtain ⟨f1, f2, f3, f4, f5, f6⟩ :=
    finally_facts r.pool r.tasks i t a h.queue_nodup h.queue_queued hi ht
  refine ⟨?_, ?_, ?_, f1, f2, ?_, ?_, ?_⟩
  · have := f4 true
    rw [hc true] at this
    simp only
    rw [h.success_eq]
    omega
  · have := f4 false
    rw [hc false] at this
    simp only
    rw [h.fail_eq]
    omega
  · intro j b hjb
    simp only at hjb
    by_cases hji : j = i
    · subst hji
      rw [f5] at hjb
      apply hres b
      rcases hjb with hjb | hjb
      · exact Or.inl (Option.some.inj hjb)
      · exact Or.inr (Option.some.inj hjb)
    · apply h.result_of j b
      rcases hjb with hjb | hjb
      · exact Or.inl (f6 j hji _ (by simp) hjb)
      · exact Or.inr (f6 j hji _ (by simp) hjb)
  · simp only
    rw [f3, h.length_eq]
  · intro h1 h2
    rcases hstage with hs | hs
    · exact absurd hs h1
    · exact absurd hs h2
  · intro n sc fc hsum
    simp only at hsum
    rcases hstage with hs | hs <;> rw [hs] at hsum <;> cases hsum

/-- A task that changes phase without running the `finally` block keeps the
invariant, when the counters are updated with the phases. -/
theorem Run.Inv.set_step {addresses : List (List Char)} {envs : Nat → Env} {r : Run}
    (h : r.Inv addresses envs) (i : Nat) (t a : ClaimPhase) (pool : ThreadPool) (sc fc : Nat)
    (hi : r.tasks[i]? = some t) (ht : t ≠ ClaimPhase.queued) (hf : isFulfilled t = false)
    (hpool : pool.queue = r.pool.queue)
    (hsc : sc + (if counted true t then 1 else 0) = r.successCount + (if counted true a then 1 else 0))
    (hfc : fc + (if counted false t then 1 else 0) = r.failCount + (if counted false a then 1 else 0))
    (hres : ∀ b, a = ClaimPhase.pacing b ∨ a = ClaimPhase.fulfilled b →
      taskResult addresses envs i = some (Completion.returned b)) :
    Run.Inv addresses envs
      { r with pool := pool, tasks := r.tasks.set i a, successCount := sc, failCount := fc } := by
  have hilt : i < r.tasks.length := (List.getElem?_eq_some.1 hi).1
  have hstage := h.stage_of_unfulfilled i t hi hf
  refine ⟨?_, ?_, ?_, ?_, ?_, ?_, ?_, ?_⟩
  · have := countP_set_of_getElem? (counted true) r.tasks i t a hi
    simp only
    have := h.success_eq
    omega
  · have := countP_set_of_getElem? (counted false) r.tasks i t a hi
    simp only
    have := h.fail_eq
    omega
  · intro j b hjb
    simp only at hjb
    by_cases hji : j = i
    · subst hji
      rw [List.getElem?_set_self hilt] at hjb
      apply hres b
      rcases hjb with hjb | hjb
      · exact Or.inl (Option.some.inj hjb)
      · exact Or.inr (Option.some.inj hjb)
    · rw [List.getElem?_set_ne (Ne.symm hji)] at hjb
      exact h.result_of j b hjb
  · simp only
    rw [hpool]
    exact h.queue_nodup
  · intro j hj
    simp only at hj ⊢
    rw [hpool] at hj
    have hji : i ≠ j := by
      intro hij
      subst hij
      rw [h.queue_queued i hj] at hi
      exact ht (Option.some.inj hi).symm
    rw [List.getElem?_set_ne hji]
    exact h.queue_queued j hj
  · simp only
    rw [List.length_set, h.length_eq]
  · intro h1 h2
    rcases hstage with hs | hs
    · exact absurd hs h1
    · exact absurd hs h2
  · intro n sc2 fc2 hsum
    simp only at hsum
    rcases hstage with hs | hs <;> rw [hs] at hsum <;> cases hsum

/-- Every event of a run keeps the invariant. -/
theorem Run.step_inv (addresses : List (List Char)) (envs : Nat → Env) (r r1 : Run) (e : RunEvent)
    (h : r.Inv addresses envs) (hs : r.step addresses envs e = some r1) :
    r1.Inv addresses envs := by
  cases e with
  | resume i =>
    simp only [Run.step] at hs
    split_ifs at hs with hi
    cases hs
    exact h.set_step i ClaimPhase.released ClaimPhase.claiming r.pool.addResume
      r.successCount r.failCount hi (by simp) rfl rfl (by simp [counted]) (by simp [counted])
      (by intro b hb; rcases hb with hb | hb <;> cases hb)
  | claimSettles i =>
    simp only [Run.step] at hs
    by_cases hi : r.tasks[i]? = some ClaimPhase.claiming
    swap
    · rw [if_neg hi] at hs
      cases hs
    rw [if_pos hi] at hs
    split at hs
    · rename_i hres
      cases hs
      exact h.set_step i ClaimPhase.claiming (ClaimPhase.pacing true) r.pool
        (r.successCount + 1) r.failCount hi (by simp) rfl rfl (by simp [counted])
        (by simp [counted])
        (by intro b hb; rcases hb with hb | hb <;> cases hb; exact hres)
    · rename_i hres
      cases hs
      exact h.set_step i ClaimPhase.claiming (ClaimPhase.pacing false) r.pool
        r.successCount (r.failCount + 1) hi (by simp) rfl rfl (by simp [counted])
        (by simp [counted])
        (by intro b hb; rcases hb with hb | hb <;> cases hb; exact hres)
    · cases hs
      have hstage := h.stage_of_unfulfilled i _ hi rfl
      exact h.finally_step i ClaimPhase.claiming ClaimPhase.rejected _ hi (by simp)
        (by intro b; rfl) (by intro b hb; rcases hb with hb | hb <;> cases hb)
        (by rcases hstage with hst | hst <;> simp [hst])
    · cases hs
  | paceDone i =>
    simp only [Run.step] at hs
    split at hs
    · rename_i b hi
      cases hs
      have hstage := h.stage_of_unfulfilled i _ hi rfl
      have := h.finally_step i (ClaimPhase.pacing b) (ClaimPhase.fulfilled b) r.stage hi (by simp)
        (by intro c; rfl)
        (by intro c hc
            rcases hc with hc | hc <;> cases hc
            exact h.result_of i b (Or.inl hi))
        hstage
      exact this
    · cases hs
  | allFulfilled =>
    simp only [Run.step] at hs
    split_ifs at hs with hc
    cases hs
    refine ⟨h.success_eq, h.fail_eq, h.result_of, h.queue_nodup, h.queue_queued, h.length_eq,
      ?_, ?_⟩
    · intro _ _ t ht
      have := List.all_eq_true.1 hc.2 t ht
      simp only [Bool.or_eq_true, beq_iff_eq] at this
      rcases this with rfl | rfl <;> rfl
    · intro n sc fc hsum
      cases hsum
  | waitAllPoll =>
    simp only [Run.step] at hs
    split_ifs at hs with hd hw
    · cases hs
      refine ⟨h.success_eq, h.fail_eq, h.result_of, h.queue_nodup, h.queue_queued, h.length_eq,
        ?_, ?_⟩
      · intro _ _
        exact h.drained (by rw [hd]; simp) (by rw [hd]; simp)
      · intro n sc fc hsum
        simp only [Stage.summarised.injEq] at hsum
        exact ⟨hsum.1.symm, hsum.2.1.symm, hsum.2.2.symm⟩
    · cases hs
      exact h

/-- Every state a run reaches satisfies the invariant. -/
theorem Run.run_inv (addresses : List (List Char)) (envs : Nat → Env) (events : List RunEvent) :
    ∀ r r1 : Run, r.Inv addresses envs → r.run addresses envs events = some r1 →
      r1.Inv addresses envs := by
  induction events with
  | nil =>
    intro r r1 h hs
    simp only [Run.run, Option.some.injEq] at hs
    rw [← hs]
    exact h
  | cons e es ih =>
    intro r r1 h hs
    simp only [Run.run] at hs
    cases hstep : r.step addresses envs e with
    | none => rw [hstep] at hs; cases hs
    | some r2 =>
      rw [hstep] at hs
      exact ih r2 r1 (Run.step_inv addresses envs r r2 e h hstep) hs

/-! ## Theorems: the pool inside `processAddresses` -/

/-- How the `finally` block changes the number of tasks with a property, when
task `i` leaves phase `t` for phase `a`. -/
theorem finally_countP (p : ClaimPhase → Bool) (pool : ThreadPool) (tasks : List ClaimPhase)
    (i : Nat) (t a : ClaimPhase)
    (hq : ∀ j, j ∈ pool.queue → tasks[j]? = some ClaimPhase.queued)
    (hi : tasks[i]? = some t) (ht : t ≠ ClaimPhase.queued) :
    (pool.queue = [] →
      (releaseNext (tasks.set i a) pool.addFinally.2).countP p + (if p t then 1 else 0) =
        tasks.countP p + (if p a then 1 else 0)) ∧
    (pool.queue ≠ [] →
      (releaseNext (tasks.set i a) pool.addFinally.2).countP p + (if p t then 1 else 0) +
          (if p ClaimPhase.queued then 1 else 0) =
        tasks.countP p + (if p a then 1 else 0) + (if p ClaimPhase.released then 1 else 0)) := by
  have h1 := countP_set_of_getElem? p tasks i t a hi
  constructor
  · intro hnil
    rw [addFinally_nil pool hnil]
    exact h1
  · intro hne
    cases hqueue : pool.queue with
    | nil => exact absurd hqueue hne
    | cons w rest =>
      rw [addFinally_cons pool w rest hqueue]
      simp only [releaseNext]
      have hw : w ∈ pool.queue := by simp [hqueue]
      have hwi : w ≠ i := by
        intro hwi
        subst hwi
        rw [hq w hw] at hi
        exact ht (Option.some.inj hi).symm
      have hwq : (tasks.set i a)[w]? = some ClaimPhase.queued := by
        rw [List.getElem?_set_ne (Ne.symm hwi)]
        exact hq w hw
      have h2 := countP_set_of_getElem? p (tasks.set i a) w ClaimPhase.queued
        ClaimPhase.released hwq
      omega

theorem Run.start_poolInv : Run.start.PoolInv :=
  ⟨rfl, rfl, by decide, by simp [Run.start], by simp [Run.start, ThreadPool.new]⟩

theorem countP_isReleased_of_fresh (l : List ClaimPhase)
    (h : ∀ t, t ∈ l → t = ClaimPhase.queued ∨ t = ClaimPhase.claiming) :
    l.countP isReleased = 0 := by
  rw [List.countP_eq_zero]
  intro t ht
  rcases h t ht with rfl | rfl <;> simp [isReleased]

theorem Run.submit_poolInv (r : Run) (h : r.PreInv) (hp : r.PoolInv) : r.submit.PoolInv := by
  have hlt : ∀ j, j ∈ r.pool.queue → j < r.tasks.length := fun j hj =>
    (List.getElem?_eq_some.1 (h.queue_queued j hj)).1
  have hrel := countP_isReleased_of_fresh r.tasks h.fresh
  have hmax := hp.max_eq
  have hact := hp.active_eq
  have hcap := hp.cap
  have hqm : ∀ (x : ClaimPhase) (i : Nat), (r.tasks ++ [x])[i]? = some ClaimPhase.queued →
      i ∈ r.pool.queue ∨ (i = r.tasks.length ∧ x = ClaimPhase.queued) := by
    intro x i hi
    by_cases hil : i < r.tasks.length
    · rw [List.getElem?_append_left hil] at hi
      exact Or.inl (hp.queued_mem i hi)
    · rw [List.getElem?_append_right (by omega)] at hi
      have hi0 : i - r.tasks.length = 0 := by
        by_contra hne
        rw [List.getElem?_eq_none (by simp; omega)] at hi
        cases hi
      rw [hi0] at hi
      simp only [List.getElem?_cons_zero, Option.some.injEq] at hi
      exact Or.inr ⟨by omega, hi⟩
  unfold Run.submit ThreadPool.add
  split_ifs with hc
  · refine ⟨hmax, ?_, ?_, ?_, ?_⟩
    · simp only [List.countP_append, List.countP_cons, List.countP_nil, isActive]
      simpa using hact
    · simp only [List.countP_append, List.countP_cons, List.countP_nil, isActive, isReleased]
      simpa using hcap
    · intro i hi
      rcases hqm _ i hi with hq | ⟨hq, -⟩
      · exact List.mem_append_left _ hq
      · simp [hq]
    · intro _
      simp only [List.countP_append, List.countP_cons, List.countP_nil, isActive, isReleased]
      simp only [Bool.false_eq_true, if_false, Nat.add_zero]
      omega
  · have hqnil : r.pool.queue = [] := by
      by_contra hne
      have := hp.full hne
      omega
    refine ⟨hmax, ?_, ?_, ?_, ?_⟩
    · simp only [List.countP_append, List.countP_cons, List.countP_nil, isActive]
      simp only [if_true, Nat.zero_add, Nat.cast_add, Nat.cast_one]
      rw [hact]
    · simp only [List.countP_append, List.countP_cons, List.countP_nil, isActive, isReleased]
      simp only [if_true, Bool.false_eq_true, if_false, Nat.zero_add, Nat.add_zero]
      omega
    · intro i hi
      rcases hqm _ i hi with hq | ⟨-, hq⟩
      · exact hq
      · cases hq
    · intro hne
      exact absurd hqnil hne

theorem Run.foldl_submit_poolInv (l : List (List Char)) :
    ∀ r : Run, r.PreInv → r.PoolInv → (l.foldl (fun r _ => r.submit) r).PoolInv := by
  induction l with
  | nil => intro r _ hp; exact hp
  | cons a l ih =>
    intro r h hp
    exact ih r.submit (Run.submit_preInv r h).1 (Run.submit_poolInv r h hp)

theorem Run.init_poolInv (addresses : List (List Char)) : (Run.init addresses).PoolInv :=
  Run.foldl_submit_poolInv addresses Run.start
    ⟨rfl, rfl, by simp [Run.start], by simp [Run.start, ThreadPool.new],
      by simp [Run.start, ThreadPool.new], rfl⟩
    Run.start_poolInv

/-- The `finally` block of a task that holds a slot keeps the invariant of the
pool. -/
theorem Run.PoolInv.finally_keeps_pool {addresses : List (List Char)} {envs : Nat → Env} {r : Run}
    (h : r.Inv addresses envs) (hp : r.PoolInv) (i : Nat) (t a : ClaimPhase) (stage : Stage)
    (hi : r.tasks[i]? = some t) (ht : isActive t = true)
    (ha1 : isActive a = false) (ha2 : isReleased a = false) (ha3 : a ≠ ClaimPhase.queued) :
    Run.PoolInv
      { r with pool := r.pool.addFinally.1,
               tasks := releaseNext (r.tasks.set i a) r.pool.addFinally.2,
               stage := stage } := by
  have htq : t ≠ ClaimPhase.queued := by
    intro htq
    rw [htq] at ht
    cases ht
  have htr : isReleased t = false := by
    cases t <;> first | rfl | cases ht
  have hilt : i < r.tasks.length := (List.getElem?_eq_some.1 hi).1
  have hA := finally_countP isActive r.pool r.tasks i t a h.queue_queued hi htq
  have hR := finally_countP isReleased r.pool r.tasks i t a h.queue_queued hi htq
  have e1 : isActive ClaimPhase.queued = false := rfl
  have e2 : isActive ClaimPhase.released = false := rfl
  have e3 : isReleased ClaimPhase.queued = false := rfl
  have e4 : isReleased ClaimPhase.released = true := rfl
  simp only [ht, ha1, htr, ha2, e1, e2, e3, e4, if_true, Bool.false_eq_true, if_false,
    Nat.add_zero] at hA hR
  have hmax := hp.max_eq
  have hact := hp.active_eq
  have hcap := hp.cap
  cases hqueue : r.pool.queue with
  | nil =>
    have hA1 := hA.1 hqueue
    have hR1 := hR.1 hqueue
    have hpool := addFinally_nil r.pool hqueue
    simp only [hpool] at hA1 hR1
    refine ⟨?_, ?_, ?_, ?_, ?_⟩
    · simp only [hpool]
      exact hmax
    · simp only [hpool]
      omega
    · simp only [hpool]
      omega
    · intro j hj
      simp only [hpool, releaseNext] at hj
      have hji : i ≠ j := by
        intro hij
        subst hij
        rw [List.getElem?_set_self hilt] at hj
        exact ha3 (Option.some.inj hj)
      rw [List.getElem?_set_ne hji] at hj
      simp only [hpool]
      exact hp.queued_mem j hj
    · intro hne
      simp only [hpool] at hne
      exact absurd hqueue hne
  | cons w rest =>
    have hne : r.pool.queue ≠ [] := by rw [hqueue]; simp
    have hA2 := hA.2 hne
    have hR2 := hR.2 hne
    have hfull := hp.full hne
    have hpool := addFinally_cons r.pool w rest hqueue
    simp only [hpool] at hA2 hR2
    refine ⟨?_, ?_, ?_, ?_, ?_⟩
    · simp only [hpool]
      exact hmax
    · simp only [hpool]
      omega
    · simp only [hpool]
      omega
    · intro j hj
      simp only [hpool, releaseNext] at hj
      have hw : w ∈ r.pool.queue := by simp [hqueue]
      have hwlt : w < (r.tasks.set i a).length := by
        rw [List.length_set]
        exact (List.getElem?_eq_some.1 (h.queue_queued w hw)).1
      have hjw : w ≠ j := by
        intro hwj
        subst hwj
        rw [List.getElem?_set_self hwlt] at hj
        cases hj
      rw [List.getElem?_set_ne hjw] at hj
      have hji : i ≠ j := by
        intro hij
        subst hij
        rw [List.getElem?_set_self hilt] at hj
        exact ha3 (Option.some.inj hj)
      rw [List.getElem?_set_ne hji] at hj
      have hmem := hp.queued_mem j hj
      rw [hqueue] at hmem
      simp only [hpool]
      rcases List.mem_cons.1 hmem with hjw2 | hjr
      · exact absurd hjw2.symm hjw
      · exact hjr
    · intro _
      simp only [hpool]
      omega

/-- A task that changes phase without running the `finally` block keeps the
invariant of the pool, when `activeThreads` follows the phases. -/
theorem Run.PoolInv.set_keeps_pool {r : Run}
    (hp : r.PoolInv) (i : Nat) (t a : ClaimPhase) (pool : ThreadPool)
    (sc fc : Nat) (hi : r.tasks[i]? = some t) (ha : a ≠ ClaimPhase.queued)
    (hq : pool.queue = r.pool.queue) (hm : pool.maxThreads = r.pool.maxThreads)
    (hact : pool.activeThreads + (if isActive t then 1 else 0) =
      r.pool.activeThreads + (if isActive a then 1 else 0))
    (hsum : (if isActive a then 1 else 0) + (if isReleased a then 1 else 0) =
      (if isActive t then 1 else 0) + (if isReleased t then 1 else 0)) :
    Run.PoolInv
      { r with pool := pool, tasks := r.tasks.set i a, successCount := sc, failCount := fc } := by
  have hilt : i < r.tasks.length := (List.getElem?_eq_some.1 hi).1
  have hA := countP_set_of_getElem? isActive r.tasks i t a hi
  have hR := countP_set_of_getElem? isReleased r.tasks i t a hi
  have hmax := hp.max_eq
  have hact0 := hp.active_eq
  have hcap := hp.cap
  refine ⟨?_, ?_, ?_, ?_, ?_⟩
  · simp only
    rw [hm]
    exact hmax
  · simp only
    split_ifs at hact hA hsum hR <;> omega
  · simp only
    split_ifs at hact hA hsum hR <;> omega
  · intro j hj
    simp only at hj ⊢
    have hji : i ≠ j := by
      intro hij
      subst hij
      rw [List.getElem?_set_self hilt] at hj
      exact ha (Option.some.inj hj)
    rw [List.getElem?_set_ne hji] at hj
    rw [hq]
    exact hp.queued_mem j hj
  · intro hne
    simp only at hne ⊢
    rw [hq] at hne
    have := hp.full hne
    split_ifs at hact hA hsum hR <;> omega

/-- Every event of a run keeps the invariant of the pool. -/
theorem Run.step_poolInv (addresses : List (List Char)) (envs : Nat → Env) (r r1 : Run)
    (e : RunEvent) (h : r.Inv addresses envs) (hp : r.PoolInv)
    (hs : r.step addresses envs e = some r1) : r1.PoolInv := by
  cases e with
  | resume i =>
    simp only [Run.step] at hs
    split_ifs at hs with hi
    cases hs
    exact hp.set_keeps_pool i ClaimPhase.released ClaimPhase.claiming r.pool.addResume
      r.successCount r.failCount hi (by simp) rfl rfl
      (by simp [isActive, ThreadPool.addResume]) (by simp [isActive, isReleased])
  | claimSettles i =>
    simp only [Run.step] at hs
    by_cases hi : r.tasks[i]? = some ClaimPhase.claiming
    swap
    · rw [if_neg hi] at hs
      cases hs
    rw [if_pos hi] at hs
    split at hs
    · cases hs
      exact hp.set_keeps_pool i ClaimPhase.claiming (ClaimPhase.pacing true) r.pool
        (r.successCount + 1) r.failCount hi (by simp) rfl rfl
        (by simp [isActive]) (by simp [isActive, isReleased])
    · cases hs
      exact hp.set_keeps_pool i ClaimPhase.claiming (ClaimPhase.pacing false) r.pool
        r.successCount (r.failCount + 1) hi (by simp) rfl rfl
        (by simp [isActive]) (by simp [isActive, isReleased])
    · cases hs
      exact hp.finally_keeps_pool h i ClaimPhase.claiming ClaimPhase.rejected _ hi rfl rfl rfl
        (by simp)
    · cases hs
  | paceDone i =>
    simp only [Run.step] at hs
    split at hs
    · rename_i b hi
      cases hs
      exact hp.finally_keeps_pool h i (ClaimPhase.pacing b) (ClaimPhase.fulfilled b) r.stage hi rfl
        rfl rfl (by simp)
    · cases hs
  | allFulfilled =>
    simp only [Run.step] at hs
    split_ifs at hs with hc
    cases hs
    exact ⟨hp.max_eq, hp.active_eq, hp.cap, hp.queued_mem, hp.full⟩
  | waitAllPoll =>
    simp only [Run.step] at hs
    split_ifs at hs with hd hw
    · cases hs
      exact ⟨hp.max_eq, hp.active_eq, hp.cap, hp.queued_mem, hp.full⟩
    · cases hs
      exact hp

/-- Every state a run reaches satisfies both invariants. -/
theorem Run.run_poolInv (addresses : List (List Char)) (envs : Nat → Env)
    (events : List RunEvent) :
    ∀ r r1 : Run, r.Inv addresses envs → r.PoolInv → r.run addresses envs events = some r1 →
      r1.PoolInv := by
  induction events with
  | nil =>
    intro r r1 _ hp hs
    simp only [Run.run, Option.some.injEq] at hs
    rw [← hs]
    exact hp
  | cons e es ih =>
    intro r r1 h hp hs
    simp only [Run.run] at hs
    cases hstep : r.step addresses envs e with
    | none => rw [hstep] at hs; cases hs
    | some r2 =>
      rw [hstep] at hs
      exact ih r2 r1 (Run.step_inv addresses envs r r2 e h hstep)
        (Run.step_poolInv addresses envs r r2 e h hp hstep) hs

/-- Inside `processAddresses`, where every `add` call is made before any task
finishes, `activeThreads` is the number of tasks that hold a slot and never
exceeds `maxThreads = MAX_CONCURRENT`. -/
theorem processAddresses_activeThreads_le (addresses : List (List Char)) (envs : Nat → Env)
    (events : List RunEvent) (r : Run)
    (hrun : (Run.init addresses).run addresses envs events = some r) :
    r.pool.activeThreads = ((r.tasks.countP isActive : Nat) : Int) ∧
    r.pool.activeThreads ≤ r.pool.maxThreads ∧ r.pool.maxThreads = MAX_CONCURRENT := by
  have hp := Run.run_poolInv addresses envs events _ r (Run.init_inv addresses envs)
    (Run.init_poolInv addresses) hrun
  refine ⟨hp.active_eq, ?_, hp.max_eq⟩
  have h1 := hp.active_eq
  have h2 := hp.cap
  have h3 := hp.max_eq
  omega

/-! ## Theorems: the summary is reached -/

theorem sum_map_set {α : Type} (f : α → Nat) (l : List α) :
    ∀ (i : Nat) (t a : α), l[i]? = some t →
      ((l.set i a).map f).sum + f t = (l.map f).sum + f a := by
  induction l with
  | nil => intro i t a h; simp at h
  | cons x xs ih =>
    intro i t a h
    cases i with
    | zero =>
      simp only [List.getElem?_cons_zero, Option.some.injEq] at h
      subst h
      simp only [List.set_cons_zero, List.map_cons, List.sum_cons]
      omega
    | succ i =>
      simp only [List.getElem?_cons_succ] at h
      have := ih i t a h
      simp only [List.set_cons_succ, List.map_cons, List.sum_cons]
      omega

/-- The `finally` block does not raise the rank of the other tasks. -/
theorem finally_rank (pool : ThreadPool) (tasks : List ClaimPhase) (i : Nat) (t a : ClaimPhase)
    (hq : ∀ j, j ∈ pool.queue → tasks[j]? = some ClaimPhase.queued)
    (hi : tasks[i]? = some t) (ht : t ≠ ClaimPhase.queued) :
    ((releaseNext (tasks.set i a) pool.addFinally.2).map phaseRank).sum + phaseRank t ≤
      (tasks.map phaseRank).sum + phaseRank a := by
  have h1 := sum_map_set phaseRank tasks i t a hi
  cases hqueue : pool.queue with
  | nil =>
    rw [addFinally_nil pool hqueue]
    simp only [releaseNext]
    omega
  | cons w rest =>
    rw [addFinally_cons pool w rest hqueue]
    simp only [releaseNext]
    have hw : w ∈ pool.queue := by simp [hqueue]
    have hwi : w ≠ i := by
      intro hwi
      subst hwi
      rw [hq w hw] at hi
      exact ht (Option.some.inj hi).symm
    have hwq : (tasks.set i a)[w]? = some ClaimPhase.queued := by
      rw [List.getElem?_set_ne (Ne.symm hwi)]
      exact hq w hw
    have h2 := sum_map_set phaseRank (tasks.set i a) w ClaimPhase.queued ClaimPhase.released hwq
    simp only [phaseRank] at h2
    omega

theorem releaseNext_no_rejected (tasks : List ClaimPhase) (next : Option Nat)
    (h : ∀ t, t ∈ tasks → t ≠ ClaimPhase.rejected) :
    ∀ t, t ∈ releaseNext tasks next → t ≠ ClaimPhase.rejected := by
  intro t ht
  cases next with
  | none => exact h t ht
  | some w =>
    rcases List.mem_or_eq_of_mem_set ht with hmem | heq
    · exact h t hmem
    · rw [heq]
      simp

theorem set_no_rejected (tasks : List ClaimPhase) (i : Nat) (a : ClaimPhase)
    (ha : a ≠ ClaimPhase.rejected) (h : ∀ t, t ∈ tasks → t ≠ ClaimPhase.rejected) :
    ∀ t, t ∈ tasks.set i a → t ≠ ClaimPhase.rejected := by
  intro t ht
  rcases List.mem_or_eq_of_mem_set ht with hmem | heq
  · exact h t hmem
  · rw [heq]
    exact ha

/-- While the summary is not printed and every `claimSuiTestnet` call returns a
boolean, some event can happen that brings the run closer to the summary. -/
theorem Run.progress (addresses : List (List Char)) (envs : Nat → Env)
    (hret : ∀ i, i < addresses.length →
      ∃ b, taskResult addresses envs i = some (Completion.returned b))
    (r : Run) (h : r.Inv addresses envs) (hp : r.PoolInv)
    (hstage : r.stage = Stage.awaitingAll ∨ r.stage = Stage.draining)
    (hnr : ∀ t, t ∈ r.tasks → t ≠ ClaimPhase.rejected) :
    ∃ e r1, r.step addresses envs e = some r1 ∧ r1.stage ≠ Stage.aborted ∧
      (∀ t, t ∈ r1.tasks → t ≠ ClaimPhase.rejected) ∧ r1.measure < r.measure := by
  rcases hstage with hst | hst
  swap
  · -- polling in `waitAll`: every task is fulfilled, so no slot is held
    have hall := h.drained (by rw [hst]; simp) (by rw [hst]; simp)
    have hzero : r.tasks.countP isActive = 0 := by
      rw [List.countP_eq_zero]
      intro t ht
      have := hall t ht
      cases t with
      | fulfilled b => simp [isActive]
      | queued => cases this
      | released => cases this
      | claiming => cases this
      | pacing b => cases this
      | rejected => cases this
    have hwait : r.pool.waitAll = true := by
      have := hp.active_eq
      rw [hzero] at this
      simp [ThreadPool.waitAll, this]
    refine ⟨RunEvent.waitAllPoll,
      { r with stage := Stage.summarised addresses.length r.successCount r.failCount },
      ?_, ?_, hnr, ?_⟩
    · simp only [Run.step, hst, if_true, hwait]
    · simp
    · simp [Run.measure, hst, stageRank]
  by_cases hrel : ∃ i : Nat, r.tasks[i]? = some ClaimPhase.released
  · obtain ⟨i, hi⟩ := hrel
    refine ⟨RunEvent.resume i,
      { r with pool := r.pool.addResume, tasks := r.tasks.set i ClaimPhase.claiming },
      ?_, ?_, ?_, ?_⟩
    · simp only [Run.step, hi, if_true]
    · simp [hst]
    · exact set_no_rejected _ _ _ (by simp) hnr
    · have := sum_map_set phaseRank r.tasks i _ ClaimPhase.claiming hi
      simp only [phaseRank] at this
      simp only [Run.measure]
      omega
  by_cases hcl : ∃ i : Nat, r.tasks[i]? = some ClaimPhase.claiming
  · obtain ⟨i, hi⟩ := hcl
    have hilt : i < addresses.length := by
      rw [← h.length_eq]
      exact (List.getElem?_eq_some.1 hi).1
    obtain ⟨b, hb⟩ := hret i hilt
    have hsum := fun a => sum_map_set phaseRank r.tasks i _ a hi
    cases b with
    | true =>
      refine ⟨RunEvent.claimSettles i,
        { r with successCount := r.successCount + 1,
                 tasks := r.tasks.set i (ClaimPhase.pacing true) }, ?_, ?_, ?_, ?_⟩
      · simp only [Run.step, hi, if_true, hb]
      · simp [hst]
      · exact set_no_rejected _ _ _ (by simp) hnr
      · have := hsum (ClaimPhase.pacing true)
        simp only [phaseRank] at this
        simp only [Run.measure]
        omega
    | false =>
      refine ⟨RunEvent.claimSettles i,
        { r with failCount := r.failCount + 1,
                 tasks := r.tasks.set i (ClaimPhase.pacing false) }, ?_, ?_, ?_, ?_⟩
      · simp only [Run.step, hi, if_true, hb]
      · simp [hst]
      · exact set_no_rejected _ _ _ (by simp) hnr
      · have := hsum (ClaimPhase.pacing false)
        simp only [phaseRank] at this
        simp only [Run.measure]
        omega
  by_cases hpa : ∃ (i : Nat) (b : Bool), r.tasks[i]? = some (ClaimPhase.pacing b)
  · obtain ⟨i, b, hi⟩ := hpa
    refine ⟨RunEvent.paceDone i,
      { r with pool := r.pool.addFinally.1,
               tasks := releaseNext (r.tasks.set i (ClaimPhase.fulfilled b)) r.pool.addFinally.2 },
      ?_, ?_, ?_, ?_⟩
    · simp only [Run.step, hi]
    · simp [hst]
    · exact releaseNext_no_rejected _ _ (set_no_rejected _ _ _ (by simp) hnr)
    · have := finally_rank r.pool r.tasks i _ (ClaimPhase.fulfilled b) h.queue_queued hi
        (by simp)
      simp only [phaseRank] at this
      simp only [Run.measure]
      omega
  · -- no task is released, claiming or pacing: every task is fulfilled
    have hA : r.tasks.countP isActive = 0 := by
      rw [List.countP_eq_zero]
      intro t ht
      obtain ⟨j, hj⟩ := List.mem_iff_getElem?.1 ht
      cases t with
      | claiming => exact absurd ⟨j, hj⟩ hcl
      | pacing b => exact absurd ⟨j, b, hj⟩ hpa
      | queued => simp [isActive]
      | released => simp [isActive]
      | fulfilled b => simp [isActive]
      | rejected => simp [isActive]
    have hR : r.tasks.countP isReleased = 0 := by
      rw [List.countP_eq_zero]
      intro t ht
      obtain ⟨j, hj⟩ := List.mem_iff_getElem?.1 ht
      cases t with
      | released => exact absurd ⟨j, hj⟩ hrel
      | claiming => simp [isReleased]
      | pacing b => simp [isReleased]
      | queued => simp [isReleased]
      | fulfilled b => simp [isReleased]
      | rejected => simp [isReleased]
    have hqnil : r.pool.queue = [] := by
      by_contra hne
      have := hp.full hne
      rw [hA, hR] at this
      revert this
      decide
    have hall : r.tasks.all
        (fun t => t == ClaimPhase.fulfilled true || t == ClaimPhase.fulfilled false) = true := by
      rw [List.all_eq_true]
      intro t ht
      obtain ⟨j, hj⟩ := List.mem_iff_getElem?.1 ht
      cases t with
      | released => exact absurd ⟨j, hj⟩ hrel
      | claiming => exact absurd ⟨j, hj⟩ hcl
      | pacing b => exact absurd ⟨j, b, hj⟩ hpa
      | queued =>
        have := hp.queued_mem j hj
        rw [hqnil] at this
        cases this
      | fulfilled b => cases b <;> decide
      | rejected => exact absurd rfl (hnr _ ht)
    refine ⟨RunEvent.allFulfilled, { r with stage := Stage.draining }, ?_, ?_, hnr, ?_⟩
    · simp only [Run.step, hst, hall, and_self, if_true]
    · simp
    · simp [Run.measure, hst, stageRank]

/-- From every state of a run in which no task was rejected, when every
`claimSuiTestnet` call returns a boolean, some continuation prints the summary. -/
theorem Run.reaches_summary (addresses : List (List Char)) (envs : Nat → Env)
    (hret : ∀ i, i < addresses.length →
      ∃ b, taskResult addresses envs i = some (Completion.returned b)) :
    ∀ (n : Nat) (r : Run), r.measure ≤ n → r.Inv addresses envs → r.PoolInv →
      r.stage ≠ Stage.aborted → (∀ t, t ∈ r.tasks → t ≠ ClaimPhase.rejected) →
      ∃ events r1 total sc fc, r.run addresses envs events = some r1 ∧
        r1.stage = Stage.summarised total sc fc := by
  intro n
  induction n with
  | zero =>
    intro r hm h hp hna hnr
    cases hst : r.stage with
    | summarised total sc fc => exact ⟨[], r, total, sc, fc, rfl, hst⟩
    | aborted => exact absurd hst hna
    | awaitingAll => simp [Run.measure, hst, stageRank] at hm
    | draining => simp [Run.measure, hst, stageRank] at hm
  | succ n ih =>
    intro r hm h hp hna hnr
    cases hst : r.stage with
    | summarised total sc fc => exact ⟨[], r, total, sc, fc, rfl, hst⟩
    | aborted => exact absurd hst hna
    | awaitingAll =>
      obtain ⟨e, r1, hstep, hna1, hnr1, hlt⟩ :=
        Run.progress addresses envs hret r h hp (Or.inl hst) hnr
      obtain ⟨events, r2, total, sc, fc, hrun, hsum⟩ := ih r1 (by omega)
        (Run.step_inv addresses envs r r1 e h hstep)
        (Run.step_poolInv addresses envs r r1 e h hp hstep) hna1 hnr1
      exact ⟨e :: events, r2, total, sc, fc, by simp [Run.run, hstep, hrun], hsum⟩
    | draining =>
      obtain ⟨e, r1, hstep, hna1, hnr1, hlt⟩ :=
        Run.progress addresses envs hret r h hp (Or.inr hst) hnr
      obtain ⟨events, r2, total, sc, fc, hrun, hsum⟩ := ih r1 (by omega)
        (Run.step_inv addresses envs r r1 e h hstep)
        (Run.step_poolInv addresses envs r r1 e h hp hstep) hna1 hnr1
      exact ⟨e :: events, r2, total, sc, fc, by simp [Run.run, hstep, hrun], hsum⟩

/-- When every `claimSuiTestnet` call returns a boolean, `processAddresses` has a
run that prints the summary, for every address list. -/
theorem processAddresses_summary_reachable (addresses : List (List Char)) (envs : Nat → Env)
    (hret : ∀ i, i < addresses.length →
      ∃ b, taskResult addresses envs i = some (Completion.returned b)) :
    ∃ events r total sc fc, (Run.init addresses).run addresses envs events = some r ∧
      r.stage = Stage.summarised total sc fc := by
  have hfold := Run.foldl_submit_preInv addresses Run.start
    ⟨rfl, rfl, by simp [Run.start], by simp [Run.start, ThreadPool.new],
      by simp [Run.start, ThreadPool.new], rfl⟩
  change (Run.init addresses).PreInv ∧ _ at hfold
  refine Run.reaches_summary addresses envs hret _ (Run.init addresses) (Nat.le_refl _)
    (Run.init_inv addresses envs) (Run.init_poolInv addresses) ?_ ?_
  · rw [hfold.1.stage_eq]
    simp
  · intro t ht
    rcases hfold.1.fresh t ht with rfl | rfl <;> simp


/-! ## Theorems: the summary of `processAddresses` -/

theorem countP_eq_countP_range' {α : Type} (p : α → Bool) (q : Nat → Bool) (l : List α) :
    ∀ k, (∀ i t, l[i]? = some t → p t = q (k + i)) →
      l.countP p = (List.range' k l.length).countP q := by
  induction l with
  | nil => intro k _; simp
  | cons a l ih =>
    intro k h
    have h0 : p a = q k := by simpa using h 0 a (by simp)
    have hrest : ∀ i t, l[i]? = some t → p t = q (k + 1 + i) := by
      intro i t hi
      have := h (i + 1) t (by simpa using hi)
      rwa [show k + (i + 1) = k + 1 + i by omega] at this
    simp only [List.length_cons, List.range'_succ, List.countP_cons, h0, ih (k + 1) hrest]

theorem countP_counted_add (l : List ClaimPhase) (h : ∀ t, t ∈ l → isFulfilled t = true) :
    l.countP (counted true) + l.countP (counted false) = l.length := by
  induction l with
  | nil => simp
  | cons a l ih =>
    have hl := ih (fun t ht => h t (List.mem_cons_of_mem a ht))
    have ha := h a (List.mem_cons_self a l)
    cases a with
    | fulfilled b =>
      cases b <;> simp [List.countP_cons, counted] <;> omega
    | queued => cases ha
    | released => cases ha
    | claiming => cases ha
    | pacing b => cases ha
    | rejected => cases ha

/-- When a run has printed its summary, every task is fulfilled, with the value
its `claimSuiTestnet` call returned. -/
theorem Run.summary_phases (addresses : List (List Char)) (envs : Nat → Env)
    (events : List RunEvent) (r : Run) (total sc fc : Nat)
    (hrun : (Run.init addresses).run addresses envs events = some r)
    (hsum : r.stage = Stage.summarised total sc fc) :
    r.Inv addresses envs ∧ (∀ t, t ∈ r.tasks → isFulfilled t = true) ∧
    (∀ i t, r.tasks[i]? = some t →
      ∃ b, t = ClaimPhase.fulfilled b ∧
        taskResult addresses envs i = some (Completion.returned b)) := by
  have hinv := Run.run_inv addresses envs events _ r (Run.init_inv addresses envs) hrun
  have hall := hinv.drained (by rw [hsum]; simp) (by rw [hsum]; simp)
  refine ⟨hinv, hall, ?_⟩
  intro i t hi
  have hful := hall t (List.getElem?_mem hi)
  cases t with
  | fulfilled b => exact ⟨b, rfl, hinv.result_of i b (Or.inr hi)⟩
  | queued => cases hful
  | released => cases hful
  | claiming => cases hful
  | pacing b => cases hful
  | rejected => cases hful

/-- C3: in every run of `processAddresses` over `N` addresses that prints its
summary, every task's `claimSuiTestnet` call returned a boolean, the printed
total is `N`, `N = successCount + failCount`, the printed `successCount` is the
number of tasks whose call returned `true` and the printed `failCount` is the
number of tasks whose call returned `false`; and when every task's call returns
a boolean, there is a run that prints the summary. -/
theorem processAddresses_summary_counts (addresses : List (List Char)) (envs : Nat → Env) :
    (∀ (events : List RunEvent) (r : Run) (total sc fc : Nat),
      (Run.init addresses).run addresses envs events = some r →
      r.stage = Stage.summarised total sc fc →
      total = addresses.length ∧ total = sc + fc ∧
      sc = (List.range addresses.length).countP
        (fun i => taskResult addresses envs i == some (Completion.returned true)) ∧
      fc = (List.range addresses.length).countP
        (fun i => taskResult addresses envs i == some (Completion.returned false)) ∧
      (∀ i, i < addresses.length →
        ∃ b, taskResult addresses envs i = some (Completion.returned b))) ∧
    ((∀ i, i < addresses.length →
        ∃ b, taskResult addresses envs i = some (Completion.returned b)) →
      ∃ (events : List RunEvent) (r : Run) (total sc fc : Nat),
        (Run.init addresses).run addresses envs events = some r ∧
        r.stage = Stage.summarised total sc fc) := by
  refine ⟨?_, processAddresses_summary_reachable addresses envs⟩
  intro events r total sc fc hrun hsum
  obtain ⟨hinv, hall, hphase⟩ := Run.summary_phases addresses envs events r total sc fc hrun hsum
  obtain ⟨ht, hsc, hfc⟩ := hinv.summary total sc fc hsum
  have hcount : ∀ c : Bool, r.tasks.countP (counted c) = (List.range addresses.length).countP
      (fun i => taskResult addresses envs i == some (Completion.returned c)) := by
    intro c
    rw [List.range_eq_range', ← hinv.length_eq]
    apply countP_eq_countP_range'
    intro i t hi
    obtain ⟨b, rfl, hres⟩ := hphase i t hi
    simp only [Nat.zero_add, hres, counted]
    cases b <;> cases c <;> rfl
  refine ⟨ht, ?_, ?_, ?_, ?_⟩
  · rw [ht, hsc, hfc, hinv.success_eq, hinv.fail_eq, countP_counted_add r.tasks hall,
      hinv.length_eq]
  · rw [hsc, hinv.success_eq, hcount true]
  · rw [hfc, hinv.fail_eq, hcount false]
  · intro i hi
    rw [← hinv.length_eq] at hi
    obtain ⟨b, -, hres⟩ := hphase i r.tasks[i] (List.getElem?_eq_getElem hi)
    exact ⟨b, hres⟩

/-- Witness for C3: two addresses, the first accepted at once, the second
rejected at every attempt; the summary shows 2 addresses, 1 success, 1 failure. -/
theorem processAddresses_summary_counts_witness :
    (Run.init [['A'], ['B']]).run [['A'], ['B']]
        (fun i => if i = 0 then scripted [AttemptResult.accepted] else scripted [])
        [RunEvent.claimSettles 0, RunEvent.claimSettles 1, RunEvent.paceDone 0,
         RunEvent.paceDone 1, RunEvent.allFulfilled, RunEvent.waitAllPoll] =
      some { pool := { maxThreads := 20, queue := [], activeThreads := 0 },
             tasks := [ClaimPhase.fulfilled true, ClaimPhase.fulfilled false],
             successCount := 1, failCount := 1, stage := Stage.summarised 2 1 1 } ∧
    (2 = [['A'], ['B']].length ∧ 2 = 1 + 1) :=
  ⟨by decide,
   let h := (processAddresses_summary_counts [['A'], ['B']]
     (fun i => if i = 0 then scripted [AttemptResult.accepted] else scripted [])).1
     [RunEvent.claimSettles 0, RunEvent.claimSettles 1, RunEvent.paceDone 0,
      RunEvent.paceDone 1, RunEvent.allFulfilled, RunEvent.waitAllPoll]
     { pool := { maxThreads := 20, queue := [], activeThreads := 0 },
       tasks := [ClaimPhase.fulfilled true, ClaimPhase.fulfilled false],
       successCount := 1, failCount := 1, stage := Stage.summarised 2 1 1 } 2 1 1
     (by decide) rfl
   ⟨h.1, h.2.1⟩⟩

/-- C6, the failing run: one address, every request throws and the append to the
error log rejects.  The `claimSuiTestnet` call throws after `MAX_RETRIES + 1`
attempts instead of returning a boolean; the task increments neither counter,
`processAddresses` ends in its `catch` block, and no continuation of the run
prints a summary.  A rejected append to the success log, in contrast, is caught
by the `try` block and the task still returns a boolean. -/
theorem processAddresses_aborts_when_error_append_fails :
    (claimSuiTestnet { attempt := fun _ => AttemptResult.thrown, appendOk := fun _ => false }
        ['0', 'x', 'a'] 0 World.init =
      some (Completion.threw, { attempts := List.range 21, appendCalls := 1, log := [] })) ∧
    ((Run.init [['0', 'x', 'a']]).run [['0', 'x', 'a']]
        (fun _ => { attempt := fun _ => AttemptResult.thrown, appendOk := fun _ => false })
        [RunEvent.claimSettles 0] =
      some { pool := { maxThreads := 20, queue := [], activeThreads := 0 },
             tasks := [ClaimPhase.rejected], successCount := 0, failCount := 0,
             stage := Stage.aborted }) ∧
    (∀ (events : List RunEvent) (r : Run) (total sc fc : Nat),
      (Run.init [['0', 'x', 'a']]).run [['0', 'x', 'a']]
        (fun _ => { attempt := fun _ => AttemptResult.thrown, appendOk := fun _ => false })
        events = some r → r.stage ≠ Stage.summarised total sc fc) ∧
    (claimSuiTestnet { attempt := fun _ => AttemptResult.accepted, appendOk := fun k => k != 0 }
        ['0', 'x', 'a'] 0 World.init =
      some (Completion.returned true,
            { attempts := [0, 1], appendCalls := 2,
              log := [{ file := LogFile.success, address := ['0', 'x', 'a'], retryCount := 1 }] })) := by
  refine ⟨by decide, by decide, ?_, by decide⟩
  intro events r total sc fc hrun hsum
  obtain ⟨hinv, -, hphase⟩ := Run.summary_phases _ _ events r total sc fc hrun hsum
  have hlen : 0 < r.tasks.length := by
    rw [hinv.length_eq]
    decide
  obtain ⟨b, -, hb⟩ := hphase 0 r.tasks[0] (List.getElem?_eq_getElem hlen)
  have hthrew : taskResult [['0', 'x', 'a']]
      (fun _ => { attempt := fun _ => AttemptResult.thrown, appendOk := fun _ => false }) 0 =
      some Completion.threw := by decide
  rw [hthrew] at hb
  cases hb

/-! ## Theorems: address loading -/


theorem splitAux_newline_eq_go (s : List Char) :
    ∀ acc, splitAux ['\n'] 0 acc s = List.splitOnP.go (fun c => c == '\n') s acc := by
  induction s with
  | nil => intro acc; simp [splitAux, List.splitOnP.go]
  | cons c cs ih =>
    intro acc
    by_cases hc : c = '\n'
    · subst hc
      simp [splitAux, List.splitOnP.go, ih]
    · have hc2 : ¬ '\n' = c := fun h => hc h.symm
      simp [splitAux, List.splitOnP.go, ih, hc, hc2]

theorem split_newline_eq_splitOn (s : List Char) : split s ['\n'] = s.splitOn '\n' := by
  rw [split, splitAux_newline_eq_go]
  rfl

theorem go_no_sep (p : Char → Bool) (s : List Char) :
    ∀ acc, (∀ x, x ∈ acc → p x = false) →
      ∀ l, l ∈ List.splitOnP.go p s acc → ∀ x, x ∈ l → p x = false := by
  induction s with
  | nil =>
    intro acc hacc l hl x hx
    simp only [List.splitOnP.go, List.mem_singleton] at hl
    subst hl
    exact hacc x (List.mem_reverse.1 hx)
  | cons c cs ih =>
    intro acc hacc l hl x hx
    simp only [List.splitOnP.go] at hl
    by_cases hc : p c = true
    · simp only [hc, if_true, List.mem_cons] at hl
      rcases hl with hl | hl
      · subst hl
        exact hacc x (List.mem_reverse.1 hx)
      · exact ih [] (by simp) l hl x hx
    · simp only [hc] at hl
      refine ih (c :: acc) ?_ l hl x hx
      intro y hy
      rcases List.mem_cons.1 hy with rfl | hy
      · simpa using hc
      · exact hacc y hy

/-- What `trim` removes is white space at the two ends. -/
theorem trim_decomp (l : List Char) :
    ∃ a b, l = a ++ trim l ++ b ∧ (∀ x, x ∈ a → isWhiteSpace x = true) ∧
      (∀ x, x ∈ b → isWhiteSpace x = true) := by
  refine ⟨l.takeWhile isWhiteSpace, (l.dropWhile isWhiteSpace).rtakeWhile isWhiteSpace, ?_, ?_, ?_⟩
  · have h1 : (l.dropWhile isWhiteSpace).rdropWhile isWhiteSpace ++
        (l.dropWhile isWhiteSpace).rtakeWhile isWhiteSpace = l.dropWhile isWhiteSpace := by
      rw [List.rdropWhile, List.rtakeWhile, ← List.reverse_append,
        List.takeWhile_append_dropWhile, List.reverse_reverse]
    rw [trim, List.append_assoc, h1, List.takeWhile_append_dropWhile]
  · intro x hx
    exact List.mem_takeWhile_imp hx
  · intro x hx
    exact List.mem_rtakeWhile_imp hx

/-- The result of `trim` does not start with white space. -/
theorem trim_head (l : List Char) (c : Char) (h : (trim l).head? = some c) :
    isWhiteSpace c = false := by
  have hpre : trim l <+: l.dropWhile isWhiteSpace := List.rdropWhile_prefix _ _
  obtain ⟨t, ht⟩ := hpre
  cases htrim : trim l with
  | nil => rw [htrim] at h; cases h
  | cons d ds =>
    rw [htrim] at h ht
    simp only [List.head?_cons, Option.some.injEq] at h
    subst h
    have hne : l.dropWhile isWhiteSpace ≠ [] := by rw [← ht]; simp
    have := List.head_dropWhile_not isWhiteSpace l hne
    simpa [← ht] using this

/-- The result of `trim` does not end with white space. -/
theorem trim_getLast (l : List Char) (c : Char) (h : (trim l).getLast? = some c) :
    isWhiteSpace c = false := by
  have hne : trim l ≠ [] := by
    intro hnil
    rw [hnil] at h
    cases h
  have := List.rdropWhile_last_not isWhiteSpace (l.dropWhile isWhiteSpace) hne
  rw [List.getLast?_eq_getLast _ hne] at h
  simp only [Option.some.injEq] at h
  rw [← h]
  simpa [trim] using this

theorem Run.init_tasks_length (addresses : List (List Char)) :
    (Run.init addresses).tasks.length = addresses.length :=
  (Run.init_inv addresses (fun _ => scripted [])).length_eq

/-- C8: for every content of the address file, the lines are the pieces between
the line feeds (joined with line feeds they give the content back, and no piece
holds a line feed); the address list of `processAddresses`, and that of
`checkBalances`, is the list of the trimmed lines without the empty ones, in
file order and with duplicates kept, where trimming removes white space at the
two ends only; every listed address is non-empty and neither starts nor ends
with white space; and `processAddresses` creates one task per listed entry. -/
theorem addresses_are_trimmed_lines (content : List Char) :
    (['\n'].intercalate (split content ['\n']) = content ∧
      (∀ l, l ∈ split content ['\n'] → '\n' ∉ l) ∧
      split content ['\n'] = content.splitOn '\n') ∧
    processAddresses_addresses content =
      ((split content ['\n']).map trim).filter (fun a => decide (a ≠ [])) ∧
    checkBalances_addresses content = processAddresses_addresses content ∧
    (∀ l : List Char, ∃ a b, l = a ++ trim l ++ b ∧ (∀ x, x ∈ a → isWhiteSpace x = true) ∧
      (∀ x, x ∈ b → isWhiteSpace x = true)) ∧
    (∀ a, a ∈ processAddresses_addresses content →
      a ≠ [] ∧ (∃ l, l ∈ split content ['\n'] ∧ a = trim l) ∧
      (∀ c, a.head? = some c → isWhiteSpace c = false) ∧
      (∀ c, a.getLast? = some c → isWhiteSpace c = false)) ∧
    (Run.init (processAddresses_addresses content)).tasks.length =
      (processAddresses_addresses content).length := by
  refine ⟨⟨?_, ?_, split_newline_eq_splitOn content⟩, ?_, rfl, trim_decomp, ?_,
    Run.init_tasks_length _⟩
  · rw [split_newline_eq_splitOn]
    exact List.intercalate_splitOn content '\n'
  · intro l hl hmem
    rw [split, splitAux_newline_eq_go] at hl
    have := go_no_sep (fun c => c == '\n') content [] (by simp) l hl '\n' hmem
    simp at this
  · unfold processAddresses_addresses
    congr 1
    funext a
    cases a <;> simp
  · intro a ha
    unfold processAddresses_addresses at ha
    rw [List.mem_filter, List.mem_map] at ha
    obtain ⟨⟨l, hl, rfl⟩, hne⟩ := ha
    refine ⟨?_, ⟨l, hl, rfl⟩, trim_head l, trim_getLast l⟩
    intro hnil
    simp [hnil] at hne

/-- Check of C8 on a file with surrounding blanks, a carriage return, empty
lines, a line of white space and a repeated address. -/
theorem addresses_are_trimmed_lines_witness :
    processAddresses_addresses " 0xa \r\n\n0xb\n\t\n0xa\n".toList =
      ["0xa".toList, "0xb".toList, "0xa".toList] ∧
    processAddresses_addresses " 0xa \r\n\n0xb\n\t\n0xa\n".toList =
      ((split " 0xa \r\n\n0xb\n\t\n0xa\n".toList ['\n']).map trim).filter
        (fun a => decide (a ≠ [])) :=
  ⟨by decide, (addresses_are_trimmed_lines _).2.1⟩

/-! ## Theorems: log text -/

theorem startsSafe_append (a b : List Char) (h : startsSafe a = true) :
    startsSafe (a ++ b) = true := by
  cases a with
  | nil => cases h
  | cons d ds => exact h

theorem lineSafe_append (a b : List Char) (ha : lineSafe a = true) (hb : lineSafe b = true) :
    lineSafe (a ++ b) = true := by
  induction a with
  | nil => exact hb
  | cons c cs ih =>
    simp only [lineSafe, Bool.and_eq_true, Bool.or_eq_true] at ha
    simp only [List.cons_append, lineSafe, Bool.and_eq_true, Bool.or_eq_true]
    refine ⟨?_, ih ha.2⟩
    rcases ha.1 with h | h
    · exact Or.inl h
    · exact Or.inr (startsSafe_append cs b h)

theorem lineSafe_of_no_lineFeed (a : List Char) (h : ∀ c, c ∈ a → c ≠ '\n') :
    lineSafe a = true := by
  induction a with
  | nil => rfl
  | cons c cs ih =>
    simp only [lineSafe, Bool.and_eq_true, Bool.or_eq_true]
    refine ⟨Or.inl ?_, ih (fun d hd => h d (List.mem_cons_of_mem c hd))⟩
    simpa using h c (List.mem_cons_self c cs)

theorem lineSafe_lineFeed_cons (a : List Char) (hs : startsSafe a = true)
    (ha : lineSafe a = true) : lineSafe ('\n' :: a) = true := by
  simp only [lineSafe, Bool.and_eq_true, Bool.or_eq_true]
  exact ⟨Or.inr hs, ha⟩

theorem hexDigit_ne_lineFeed (n : Nat) (h : n < 16) : hexDigit n ≠ '\n' := by
  have hall : ∀ m, m < 16 → hexDigit m ≠ '\n' := by decide
  exact hall n h

theorem escapeChar_no_lineFeed (c : Char) : ∀ x, x ∈ escapeChar c → x ≠ '\n' := by
  intro x hx
  unfold escapeChar at hx
  split_ifs at hx with h1 h2 h3 h4 h5 h6 h7 h8
  · simp only [List.mem_cons, List.mem_singleton, List.not_mem_nil, or_false] at hx
    rcases hx with rfl | rfl <;> decide
  · simp only [List.mem_cons, List.mem_singleton, List.not_mem_nil, or_false] at hx
    rcases hx with rfl | rfl <;> decide
  · simp only [List.mem_cons, List.mem_singleton, List.not_mem_nil, or_false] at hx
    rcases hx with rfl | rfl <;> decide
  · simp only [List.mem_cons, List.mem_singleton, List.not_mem_nil, or_false] at hx
    rcases hx with rfl | rfl <;> decide
  · simp only [List.mem_cons, List.mem_singleton, List.not_mem_nil, or_false] at hx
    rcases hx with rfl | rfl <;> decide
  · simp only [List.mem_cons, List.mem_singleton, List.not_mem_nil, or_false] at hx
    rcases hx with rfl | rfl <;> decide
  · simp only [List.mem_cons, List.mem_singleton, List.not_mem_nil, or_false] at hx
    rcases hx with rfl | rfl <;> decide
  · simp only [List.mem_cons, List.mem_singleton, List.not_mem_nil, or_false] at hx
    rcases hx with rfl | rfl | rfl | rfl | rfl | rfl
    · decide
    · decide
    · decide
    · decide
    · exact hexDigit_ne_lineFeed _ (by omega)
    · exact hexDigit_ne_lineFeed _ (Nat.mod_lt _ (by decide))
  · simp only [List.mem_singleton] at hx
    subst hx
    intro hc
    subst hc
    exact h5 rfl

theorem quote_no_lineFeed (s : List Char) : ∀ x, x ∈ quote s → x ≠ '\n' := by
  intro x hx
  simp only [quote, List.mem_cons, List.mem_append, List.mem_flatten, List.mem_map,
    List.mem_singleton, List.not_mem_nil, or_false] at hx
  rcases hx with rfl | ⟨l, ⟨c, -, rfl⟩, hxl⟩ | rfl
  · decide
  · exact escapeChar_no_lineFeed c x hxl
  · decide

theorem indentation_no_lineFeed (level : Nat) : ∀ x, x ∈ indentation level → x ≠ '\n' := by
  intro x hx
  rw [indentation, List.mem_replicate] at hx
  rw [hx.2]
  decide

theorem startsSafe_indentation_succ (level : Nat) (rest : List Char) :
    startsSafe (indentation (level + 1) ++ rest) = true := by
  have : indentation (level + 1) = ' ' :: List.replicate (2 * level + 1) ' ' := by
    rw [indentation, show 2 * (level + 1) = (2 * level + 1) + 1 by omega, List.replicate_succ]
  rw [this]
  rfl

theorem startsSafe_indentation_close (level : Nat) (right : Char)
    (hr : followsLineFeed right = true) : startsSafe (indentation level ++ [right]) = true := by
  cases level with
  | zero => simpa [indentation, startsSafe] using hr
  | succ n => exact startsSafe_indentation_succ n [right]

theorem lineSafe_intercalate (sep : List Char) (hsep : lineSafe sep = true) :
    ∀ parts : List (List Char), (∀ t, t ∈ parts → lineSafe t = true) →
      lineSafe (List.intercalate sep parts) = true := by
  intro parts
  induction parts with
  | nil => intro _; rfl
  | cons t ts ih =>
    intro h
    cases ts with
    | nil =>
      simpa [List.intercalate] using h t (List.mem_cons_self t [])
    | cons u us =>
      have hrest := ih (fun x hx => h x (List.mem_cons_of_mem t hx))
      have : List.intercalate sep (t :: u :: us) = t ++ (sep ++ List.intercalate sep (u :: us)) := by
        simp [List.intercalate, List.intersperse]
      rw [this]
      exact lineSafe_append _ _ (h t (List.mem_cons_self t _)) (lineSafe_append _ _ hsep hrest)

theorem lineSafe_bracketed (left right : Char) (level : Nat) (parts : List (List Char))
    (hl : left ≠ '\n') (hr : followsLineFeed right = true) (hrn : right ≠ '\n')
    (hparts : ∀ t, t ∈ parts → lineSafe t = true) :
    lineSafe (bracketed left right level parts) = true := by
  unfold bracketed
  split_ifs with he
  · apply lineSafe_of_no_lineFeed
    intro c hc
    simp only [List.mem_cons, List.mem_singleton, List.not_mem_nil, or_false] at hc
    rcases hc with rfl | rfl
    · exact hl
    · exact hrn
  · have h1 : lineSafe [left] = true :=
      lineSafe_of_no_lineFeed _ (by intro c hc; simp at hc; rw [hc]; exact hl)
    have hind : ∀ k, lineSafe (indentation k) = true := fun k =>
      lineSafe_of_no_lineFeed _ (indentation_no_lineFeed k)
    have h4 : lineSafe ('\n' :: (indentation level ++ [right])) = true :=
      lineSafe_lineFeed_cons _ (startsSafe_indentation_close level right hr)
        (lineSafe_append _ _ (hind level)
          (lineSafe_of_no_lineFeed _ (by intro c hc; simp at hc; rw [hc]; exact hrn)))
    have hsep : lineSafe (',' :: '\n' :: indentation (level + 1)) = true := by
      have h0 : lineSafe ('\n' :: indentation (level + 1)) = true := by
        have := lineSafe_lineFeed_cons (indentation (level + 1) ++ [])
          (startsSafe_indentation_succ level []) (by simpa using hind (level + 1))
        simpa using this
      exact lineSafe_append [','] _ (by decide) h0
    have h3 := lineSafe_append _ _ (lineSafe_intercalate _ hsep parts hparts) h4
    have h2 := lineSafe_lineFeed_cons _ (startsSafe_indentation_succ level _)
      (lineSafe_append _ _ (hind (level + 1)) h3)
    exact lineSafe_append [left] _ h1 h2

mutual
theorem serialize_lineSafe (level : Nat) :
    ∀ (v : JSValue) (t : List Char), serialize level v = some t → lineSafe t = true
  | JSValue.undefined, t, h => by simp [serialize] at h
  | JSValue.null, t, h => by
    simp only [serialize, Option.some.injEq] at h
    subst h
    decide
  | JSValue.bool true, t, h => by
    simp only [serialize, Option.some.injEq] at h
    subst h
    decide
  | JSValue.bool false, t, h => by
    simp only [serialize, Option.some.injEq] at h
    subst h
    decide
  | JSValue.num n, t, h => by
    simp only [serialize, Option.some.injEq] at h
    subst h
    apply lineSafe_of_no_lineFeed
    intro c hc hcn
    subst hcn
    have := List.all_eq_true.1 n.ok _ hc
    revert this
    decide
  | JSValue.str s, t, h => by
    simp only [serialize, Option.some.injEq] at h
    subst h
    exact lineSafe_of_no_lineFeed _ (quote_no_lineFeed s)
  | JSValue.arr items, t, h => by
    simp only [serialize, Option.some.injEq] at h
    subst h
    exact lineSafe_bracketed _ _ level _ (by decide) (by decide) (by decide)
      (serializeItems_lineSafe (level + 1) items)
  | JSValue.obj members, t, h => by
    simp only [serialize, Option.some.injEq] at h
    subst h
    exact lineSafe_bracketed _ _ level _ (by decide) (by decide) (by decide)
      (serializeMembers_lineSafe (level + 1) members)
theorem serializeItems_lineSafe (level : Nat) :
    ∀ (items : JSItems) (t : List Char), t ∈ serializeItems level items → lineSafe t = true
  | JSItems.nil, t, h => by simp [serializeItems] at h
  | JSItems.cons v rest, t, h => by
    simp only [serializeItems, List.mem_cons] at h
    rcases h with h | h
    · cases hv : serialize level v with
      | none =>
        rw [hv] at h
        subst h
        decide
      | some u =>
        rw [hv] at h
        rw [h]
        exact serialize_lineSafe level v u hv
    · exact serializeItems_lineSafe level rest t h
theorem serializeMembers_lineSafe (level : Nat) :
    ∀ (members : JSMembers) (t : List Char), t ∈ serializeMembers level members →
      lineSafe t = true
  | JSMembers.nil, t, h => by simp [serializeMembers] at h
  | JSMembers.cons key v rest, t, h => by
    simp only [serializeMembers] at h
    cases hv : serialize level v with
    | none =>
      rw [hv] at h
      exact serializeMembers_lineSafe level rest t h
    | some u =>
      rw [hv] at h
      simp only [List.mem_cons] at h
      rcases h with h | h
      · subst h
        refine lineSafe_append _ _ (lineSafe_of_no_lineFeed _ (quote_no_lineFeed key)) ?_
        exact lineSafe_append [':', ' '] u (by decide) (serialize_lineSafe level v u hv)
      · exact serializeMembers_lineSafe level rest t h
end

theorem recordText_lineSafe (v : JSValue) : lineSafe (recordText v) = true := by
  unfold recordText
  cases hv : serialize 0 v with
  | none => decide
  | some t => exact serialize_lineSafe 0 v t hv

theorem splitAux_skip (sep : List Char) (xs : List Char) :
    ∀ (k : Nat) (acc rest : List Char), xs.length = k →
      splitAux sep k acc (xs ++ rest) = splitAux sep 0 acc rest := by
  induction xs with
  | nil =>
    intro k acc rest hk
    simp only [List.length_nil] at hk
    subst hk
    rfl
  | cons x xs ih =>
    intro k acc rest hk
    simp only [List.length_cons] at hk
    subst hk
    simp only [List.cons_append, splitAux]
    exact ih _ acc rest rfl

/-- A record text followed by the terminator is the first piece of the split on
the terminator. -/
theorem splitAux_block (r : List Char) (hr : lineSafe r = true) :
    ∀ acc rest : List Char,
      splitAux terminator 0 acc (r ++ terminator ++ rest) =
        (acc.reverse ++ r) :: splitAux terminator 0 [] rest := by
  induction r with
  | nil =>
    intro acc rest
    have h := splitAux_skip terminator ['-', '-', '-', '\n'] 4 [] rest rfl
    simp only [List.nil_append, List.append_nil]
    have hpre : terminator.isPrefixOf ('\n' :: (['-', '-', '-', '\n'] ++ rest)) = true := by
      simp [terminator]
    have : terminator ++ rest = '\n' :: (['-', '-', '-', '\n'] ++ rest) := rfl
    rw [this, splitAux, if_pos hpre]
    exact congrArg _ h
  | cons c cs ih =>
    intro acc rest
    simp only [lineSafe, Bool.and_eq_true, Bool.or_eq_true] at hr
    have hno : terminator.isPrefixOf (c :: (cs ++ terminator ++ rest)) = false := by
      by_cases hc : c = '\n'
      · subst hc
        rcases hr.1 with h | h
        · simp at h
        · cases cs with
          | nil => cases h
          | cons d ds =>
            have hd : d ≠ '-' := by
              intro hd
              subst hd
              simp [startsSafe, followsLineFeed] at h
            have hd2 : ¬ '-' = d := fun h2 => hd h2.symm
            simp [terminator, List.isPrefixOf, hd2]
      · have hc2 : ¬ '\n' = c := fun h2 => hc h2.symm
        simp [terminator, List.isPrefixOf, hc2]
    have hstep : splitAux terminator 0 acc (c :: (cs ++ terminator ++ rest)) =
        splitAux terminator 0 (c :: acc) (cs ++ terminator ++ rest) := by
      rw [splitAux, hno]
      rfl
    simp only [List.cons_append] at hstep ⊢
    rw [hstep, ih hr.2 (c :: acc) rest]
    simp

theorem logText_cons (v : JSValue) (vs : List JSValue) :
    logText (v :: vs) = recordText v ++ terminator ++ logText vs := by
  simp [logText, logBlock]

/-- Splitting a log on the terminator gives the record texts, in order, and the
empty rest after the last terminator. -/
theorem split_logText (vs : List JSValue) :
    split (logText vs) terminator = vs.map recordText ++ [[]] := by
  induction vs with
  | nil => rfl
  | cons v vs ih =>
    rw [logText_cons, split, splitAux_block _ (recordText_lineSafe v)]
    simp only [List.reverse_nil, List.nil_append, List.map_cons, List.cons_append]
    rw [← split, ih]

theorem trim_eq_self (l : List Char) (c d : Char) (hc : l.head? = some c)
    (hcw : isWhiteSpace c = false) (hd : l.getLast? = some d) (hdw : isWhiteSpace d = false) :
    trim l = l := by
  cases l with
  | nil => cases hc
  | cons x xs =>
    simp only [List.head?_cons, Option.some.injEq] at hc
    subst hc
    have h1 : (x :: xs).dropWhile isWhiteSpace = x :: xs := by
      simp [List.dropWhile, hcw]
    rw [trim, h1, List.rdropWhile_eq_self_iff]
    intro hne
    rw [List.getLast?_eq_getLast _ hne] at hd
    simp only [Option.some.injEq] at hd
    rw [hd, hdw]
    simp

theorem bracketed_head (left right : Char) (level : Nat) (parts : List (List Char)) :
    (bracketed left right level parts).head? = some left := by
  unfold bracketed
  split_ifs <;> rfl

theorem bracketed_getLast (left right : Char) (level : Nat) (parts : List (List Char)) :
    (bracketed left right level parts).getLast? = some right := by
  unfold bracketed
  split_ifs
  · rfl
  · rw [show ∀ (a b : Char) (l m n : List Char),
        a :: b :: (l ++ (m ++ '\n' :: (n ++ [right]))) =
          (a :: b :: (l ++ (m ++ '\n' :: n))) ++ [right] by intros; simp]
    exact List.getLast?_append_of_ne_nil _ (by simp) |>.trans (by simp)

theorem trim_recordText_obj (m : JSMembers) :
    trim (recordText (JSValue.obj m)) = recordText (JSValue.obj m) ∧
    recordText (JSValue.obj m) ≠ [] := by
  have hhead : (recordText (JSValue.obj m)).head? = some '{' := by
    simp only [recordText, serialize]
    exact bracketed_head _ _ _ _
  have hlast : (recordText (JSValue.obj m)).getLast? = some '}' := by
    simp only [recordText, serialize]
    exact bracketed_getLast _ _ _ _
  refine ⟨trim_eq_self _ _ _ hhead (by decide) hlast (by decide), ?_⟩
  intro hnil
  rw [hnil] at hhead
  cases hhead

theorem blocks_of_texts (texts : List (List Char))
    (h : ∀ t, t ∈ texts → trim t = t ∧ t ≠ []) :
    ((texts ++ [[]]).map trim).filter (fun b => !b.isEmpty) = texts := by
  induction texts with
  | nil => decide
  | cons t ts ih =>
    obtain ⟨h1, h2⟩ := h t (List.mem_cons_self t ts)
    have hrest := ih (fun u hu => h u (List.mem_cons_of_mem t hu))
    simp only [List.cons_append, List.map_cons, h1]
    rw [List.filter_cons_of_pos (by cases t with
      | nil => exact absurd rfl h2
      | cons a as => rfl)]
    rw [hrest]

/-- C9 as stated fails: a record whose address is `---` is cut in two by a split
on the three dashes, also when the blocks are trimmed and the empty ones are
dropped: one record gives two blocks, neither of them the record's text. -/
theorem split_on_dashes_loses_records :
    ¬ (∀ vs : List JSValue, (∀ v, v ∈ vs → ∃ m, v = JSValue.obj m) →
        blocks (logText vs) ['-', '-', '-'] = vs.map recordText) := by
  intro hall
  have h := hall [errorInfo ['t'] ['-', '-', '-'] ['m'] JSValue.undefined JSValue.undefined]
    (by intro v hv
        simp only [List.mem_singleton] at hv
        exact ⟨_, hv⟩)
  exact absurd h (by decide)

/-- C9, amended: for every sequence of values appended to one log, each written
as `JSON.stringify(record, null, 2)` followed by the terminator (line feed,
three dashes, line feed), splitting the log's text on that terminator gives
exactly the texts of the records, one piece per record and in write order,
followed by the empty piece after the last terminator; and when the values are
objects, as the outcome records are, trimming the pieces and dropping the empty
ones gives exactly the texts of the records. -/
theorem split_on_terminator_recovers_records (vs : List JSValue) :
    split (logText vs) terminator = vs.map recordText ++ [[]] ∧
    ((∀ v, v ∈ vs → ∃ m, v = JSValue.obj m) →
      blocks (logText vs) terminator = vs.map recordText) := by
  refine ⟨split_logText vs, ?_⟩
  intro hobj
  rw [blocks, split_logText]
  apply blocks_of_texts
  intro t ht
  rw [List.mem_map] at ht
  obtain ⟨v, hv, rfl⟩ := ht
  obtain ⟨m, rfl⟩ := hobj v hv
  exact trim_recordText_obj m

/-- Witness for C9, amended: a log of two records, the first with the address
`---`, the second with an error message that holds a line of three dashes. -/
theorem split_on_terminator_recovers_records_witness :
    (∀ v, v ∈ [resultRecord ['t'] ['-', '-', '-'] ⟨['2', '0', '2'], rfl⟩ JSValue.null,
               errorInfo ['t'] ['a'] ['x', '\n', '-', '-', '-', '\n', 'y'] JSValue.undefined
                 JSValue.undefined] → ∃ m, v = JSValue.obj m) ∧
    blocks (logText [resultRecord ['t'] ['-', '-', '-'] ⟨['2', '0', '2'], rfl⟩ JSValue.null,
                     errorInfo ['t'] ['a'] ['x', '\n', '-', '-', '-', '\n', 'y'] JSValue.undefined
                       JSValue.undefined]) terminator =
      [recordText (resultRecord ['t'] ['-', '-', '-'] ⟨['2', '0', '2'], rfl⟩ JSValue.null),
       recordText (errorInfo ['t'] ['a'] ['x', '\n', '-', '-', '-', '\n', 'y'] JSValue.undefined
         JSValue.undefined)] := by
  have hobj : ∀ v, v ∈ [resultRecord ['t'] ['-', '-', '-'] ⟨['2', '0', '2'], rfl⟩ JSValue.null,
      errorInfo ['t'] ['a'] ['x', '\n', '-', '-', '-', '\n', 'y'] JSValue.undefined
        JSValue.undefined] → ∃ m, v = JSValue.obj m := by
    intro v hv
    simp only [List.mem_cons, List.mem_singleton, List.not_mem_nil, or_false] at hv
    rcases hv with rfl | rfl
    · exact ⟨_, rfl⟩
    · exact ⟨_, rfl⟩
  exact ⟨hobj, (split_on_terminator_recovers_records _).2 hobj⟩
end ClaimSui
